import Mathlib

/-!
Verification development for the FoundationDB TLog subsystem
(`fdbserver/TLogServer.actor.cpp`) and the flow transport layer
(`fdbrpc/FlowTransport.actor.cpp`).

The C++ code is shallowly embedded: byte streams become `List Nat`
(each element one byte), machine integers become `Nat` with explicit
bounds where overflow matters, and the cooperative single-threaded
actor code becomes explicit state-transition functions on a state
record, with one transition per critical section between suspension
points.
-/

namespace Spec2Proof

/-! ## Little-endian byte codec

`BinaryWriter`/`BinaryReader` in flow serialize fixed-width integers
little-endian.  `toLE w n` produces the `w`-byte little-endian encoding
of `n`; `fromLE` decodes a byte list (of any length, mirroring the
`memcpy` into a zero-initialized integer used for partial headers). -/

def toLE : Nat → Nat → List Nat
  | 0, _ => []
  | w + 1, n => (n % 256) :: toLE w (n / 256)

def fromLE : List Nat → Nat
  | [] => 0
  | b :: l => b + 256 * fromLE l

@[simp] theorem toLE_length (w n : Nat) : (toLE w n).length = w := by
  induction w generalizing n with
  | zero => rfl
  | succ w ih => simp [toLE, ih]

theorem fromLE_toLE {w n : Nat} (h : n < 256 ^ w) : fromLE (toLE w n) = n := by
  induction w generalizing n with
  | zero =>
    simp [toLE, fromLE]
    omega
  | succ w ih =>
    have hdiv : n / 256 < 256 ^ w := by
      rw [Nat.div_lt_iff_lt_mul (by norm_num : 0 < 256)]
      calc n < 256 ^ (w + 1) := h
        _ = 256 ^ w * 256 := by ring
    simp [toLE, fromLE, ih hdiv]
    omega

/-! ## TLogQueue framing (`TLogQueue::push` / `TLogQueue::readNext`)

A queue entry (`TLogQueueEntryRef`) carries a generation id (a `UID`,
two 64-bit words), a version, a known-committed version and the raw
message bytes.  Its flow serialization order is
`version, messages, knownCommittedVersion, id` where the `StringRef`
is length-prefixed by a 32-bit count and the `UID` is its two 64-bit
words in order. -/

structure QueueEntry where
  idFirst : Nat
  idSecond : Nat
  version : Nat
  knownCommittedVersion : Nat
  messages : List Nat
  deriving DecidableEq

def serializeEntry (e : QueueEntry) : List Nat :=
  toLE 8 e.version ++ toLE 4 e.messages.length ++ e.messages ++
    toLE 8 e.knownCommittedVersion ++ toLE 8 e.idFirst ++ toLE 8 e.idSecond

def parseEntry (l : List Nat) : Option QueueEntry :=
  if 8 ≤ l.length then
    let version := fromLE (l.take 8)
    let l1 := l.drop 8
    if 4 ≤ l1.length then
      let mlen := fromLE (l1.take 4)
      let l2 := l1.drop 4
      if mlen ≤ l2.length then
        let msgs := l2.take mlen
        let l3 := l2.drop mlen
        if 24 ≤ l3.length then
          let kcv := fromLE (l3.take 8)
          let l4 := l3.drop 8
          let idFirst := fromLE (l4.take 8)
          let idSecond := fromLE ((l4.drop 8).take 8)
          some ⟨idFirst, idSecond, version, kcv, msgs⟩
        else none
      else none
    else none
  else none

/-- The payload written by `TLogQueue::push`: an 8-byte protocol-version
tag (`IncludeVersion`) followed by the serialized queue entry. -/
def payloadOf (pv : Nat) (e : QueueEntry) : List Nat :=
  toLE 8 pv ++ serializeEntry e

/-- The payload parser of `readNext`: `ArenaReader … IncludeVersion()`
first consumes the 8-byte protocol-version tag, then deserializes the
entry. -/
def parsePayload (l : List Nat) : Option QueueEntry :=
  if 8 ≤ l.length then parseEntry (l.drop 8) else none

/-- The full record framing of `TLogQueue::push`: a u32 payload length,
the payload, and the valid-flag byte `1`. -/
def pushBytes (pv : Nat) (e : QueueEntry) : List Nat :=
  toLE 4 (payloadOf pv e).length ++ payloadOf pv e ++ [1]

inductive ReadNextResult where
  /-- A record was returned: the parsed entry, and the remainder of the
  stream after the record. -/
  | entry (e : Option QueueEntry) (rest : List Nat)
  /-- `end_of_stream` was thrown after writing `zeroFill` zero bytes. -/
  | endOfStream (zeroFill : Nat)
  /-- One of the `ASSERT`s in `readNext` failed. -/
  | assertFail
  deriving DecidableEq

/-- Model of `TLogQueue::readNext` over the recovered byte stream.
Each loop iteration reads a 4-byte size header, then `payloadSize + 1`
bytes.  A short header or short payload computes the zero-fill and
throws `end_of_stream`; a complete record whose valid flag is `0` is
skipped and the loop continues; a valid flag of `1` returns the parsed
entry; any other flag fails the `ASSERT(e[payloadSize] == 1)`. -/
def readNextBytes (s : List Nat) : ReadNextResult :=
  if h4 : (s.take 4).length = 4 then
    if fromLE (s.take 4) < 100 * 2 ^ 20 then
      if he : ((s.drop 4).take (fromLE (s.take 4) + 1)).length = fromLE (s.take 4) + 1 then
        if ((s.drop 4).take (fromLE (s.take 4) + 1)).getD (fromLE (s.take 4)) 0 = 0 then
          readNextBytes (s.drop (4 + (fromLE (s.take 4) + 1)))
        else if ((s.drop 4).take (fromLE (s.take 4) + 1)).getD (fromLE (s.take 4)) 0 = 1 then
          .entry (parsePayload (((s.drop 4).take (fromLE (s.take 4) + 1)).take (fromLE (s.take 4))))
            (s.drop (4 + (fromLE (s.take 4) + 1)))
        else .assertFail
      else .endOfStream (fromLE (s.take 4) + 1 - ((s.drop 4).take (fromLE (s.take 4) + 1)).length)
    else .assertFail
  else if (s.take 4).length = 0 then .endOfStream 0
  else .endOfStream ((4 - (s.take 4).length) + (fromLE (s.take 4) + 1))
termination_by s.length
decreasing_by
  simp only [List.length_take, List.length_drop] at h4 he ⊢
  omega

/-! ### Round-trip of the queue framing -/

theorem take_toLE_append (w n : Nat) (r : List Nat) : (toLE w n ++ r).take w = toLE w n :=
  List.take_left' (toLE_length _ _)

theorem drop_toLE_append (w n : Nat) (r : List Nat) : (toLE w n ++ r).drop w = r :=
  List.drop_left' (toLE_length _ _)

theorem take_toLE_self (w n : Nat) : (toLE w n).take w = toLE w n :=
  List.take_of_length_le (le_of_eq (toLE_length _ _))

theorem parseEntry_serializeEntry (e : QueueEntry)
    (hv : e.version < 2 ^ 64) (hk : e.knownCommittedVersion < 2 ^ 64)
    (h1 : e.idFirst < 2 ^ 64) (h2 : e.idSecond < 2 ^ 64)
    (hm : e.messages.length < 2 ^ 32) :
    parseEntry (serializeEntry e) = some e := by
  have e64 : (256 : Nat) ^ 8 = 2 ^ 64 := by norm_num
  have e32 : (256 : Nat) ^ 4 = 2 ^ 32 := by norm_num
  have hv8 : e.version < 256 ^ 8 := by rw [e64]; exact hv
  have hk8 : e.knownCommittedVersion < 256 ^ 8 := by rw [e64]; exact hk
  have h18 : e.idFirst < 256 ^ 8 := by rw [e64]; exact h1
  have h28 : e.idSecond < 256 ^ 8 := by rw [e64]; exact h2
  have hm4 : e.messages.length < 256 ^ 4 := by rw [e32]; exact hm
  simp only [parseEntry, serializeEntry, List.append_assoc, take_toLE_append,
    drop_toLE_append, fromLE_toLE hv8, fromLE_toLE hk8, fromLE_toLE h18,
    fromLE_toLE h28, fromLE_toLE hm4, List.take_left, List.drop_left,
    take_toLE_self, List.length_append, toLE_length]
  simp

theorem getD_append_last (l : List Nat) (x : Nat) : (l ++ [x]).getD l.length 0 = x := by
  rw [List.getD_append_right l [x] 0 l.length (le_refl _)]
  simp [List.getD]

/-- One step of `readNextBytes` on a complete record `u32 len · payload ·
flag`: flag `0` skips the record and continues, flag `1` returns the
parsed payload, anything else fails the assertion. -/
theorem readNextBytes_record (payload rest : List Nat) (flag : Nat)
    (h : payload.length < 100 * 2 ^ 20) :
    readNextBytes (toLE 4 payload.length ++ ((payload ++ [flag]) ++ rest)) =
      if flag = 0 then readNextBytes rest
      else if flag = 1 then .entry (parsePayload payload) rest
      else .assertFail := by
  have h4 : payload.length < 256 ^ 4 := by
    have : 100 * 2 ^ 20 < 256 ^ 4 := by norm_num
    omega
  have hlen1 : (payload ++ [flag]).length = payload.length + 1 := by simp
  rw [readNextBytes]
  simp only [take_toLE_append, drop_toLE_append, toLE_length, fromLE_toLE h4,
    List.take_left' hlen1]
  rw [dif_pos trivial, if_pos h, dif_pos hlen1]
  have hflag : (payload ++ [flag]).getD payload.length 0 = flag := getD_append_last _ _
  rw [hflag]
  have hdrop : (toLE 4 payload.length ++ ((payload ++ [flag]) ++ rest)).drop
      (4 + (payload.length + 1)) = rest := by
    rw [← List.append_assoc]
    refine List.drop_left' ?_
    simp
  have htake : (payload ++ [flag]).take payload.length = payload := List.take_left _ _
  by_cases h0 : flag = 0
  · subst h0
    simp only [List.append_assoc, List.singleton_append] at hdrop
    simp [hdrop]
  · by_cases h1 : flag = 1
    · subst h1
      simp only [List.append_assoc, List.singleton_append] at hdrop
      simp [hdrop, htake]
    · simp [h0, h1]

theorem parsePayload_payloadOf (pv : Nat) (e : QueueEntry)
    (hv : e.version < 2 ^ 64) (hk : e.knownCommittedVersion < 2 ^ 64)
    (h1 : e.idFirst < 2 ^ 64) (h2 : e.idSecond < 2 ^ 64)
    (hm : e.messages.length < 2 ^ 32) :
    parsePayload (payloadOf pv e) = some e := by
  unfold parsePayload payloadOf
  rw [drop_toLE_append]
  rw [if_pos (by simp [toLE_length])]
  exact parseEntry_serializeEntry e hv hk h1 h2 hm

theorem readNextBytes_pushBytes (pv : Nat) (e : QueueEntry) (rest : List Nat)
    (hv : e.version < 2 ^ 64) (hk : e.knownCommittedVersion < 2 ^ 64)
    (h1 : e.idFirst < 2 ^ 64) (h2 : e.idSecond < 2 ^ 64)
    (hm : e.messages.length < 2 ^ 32)
    (hsz : (payloadOf pv e).length < 100 * 2 ^ 20) :
    readNextBytes (pushBytes pv e ++ rest) = .entry (some e) rest := by
  have hshape : pushBytes pv e ++ rest =
      toLE 4 (payloadOf pv e).length ++ (((payloadOf pv e) ++ [1]) ++ rest) := by
    simp [pushBytes, List.append_assoc]
  rw [hshape, readNextBytes_record _ _ _ hsz]
  simp [parsePayload_payloadOf pv e hv hk h1 h2 hm]

/-- C4: pushing a queue entry with `TLogQueue::push` — u32 payload
length, then a payload beginning with the protocol-version tag, then
the valid-flag byte `1` — and reading back with `TLogQueue::readNext`
from the same location yields the same entry (all four fields) and
leaves the read cursor at the following record. -/
theorem c4_queue_roundtrip (pv : Nat) (e : QueueEntry) (rest : List Nat)
    (hv : e.version < 2 ^ 64) (hk : e.knownCommittedVersion < 2 ^ 64)
    (h1 : e.idFirst < 2 ^ 64) (h2 : e.idSecond < 2 ^ 64)
    (hm : e.messages.length < 2 ^ 32) (hpv : pv < 2 ^ 64)
    (hsz : (payloadOf pv e).length < 100 * 2 ^ 20) :
    readNextBytes (pushBytes pv e ++ rest) = .entry (some e) rest :=
  readNextBytes_pushBytes pv e rest hv hk h1 h2 hm hsz

theorem c4_queue_roundtrip_witness :
    ((3 : Nat) < 2 ^ 64 ∧ (4 : Nat) < 2 ^ 64 ∧ (1 : Nat) < 2 ^ 64 ∧ (2 : Nat) < 2 ^ 64 ∧
      ([10, 20] : List Nat).length < 2 ^ 32 ∧ (7 : Nat) < 2 ^ 64 ∧
      (payloadOf 7 ⟨1, 2, 3, 4, [10, 20]⟩).length < 100 * 2 ^ 20) ∧
    readNextBytes (pushBytes 7 ⟨1, 2, 3, 4, [10, 20]⟩ ++ [9]) =
      .entry (some ⟨1, 2, 3, 4, [10, 20]⟩) [9] :=
  ⟨by norm_num [payloadOf, serializeEntry, toLE],
   c4_queue_roundtrip 7 ⟨1, 2, 3, 4, [10, 20]⟩ [9] (by norm_num) (by norm_num)
     (by norm_num) (by norm_num) (by norm_num) (by norm_num)
     (by norm_num [payloadOf, serializeEntry, toLE])⟩

/-- C5 counterexample: a complete record whose valid flag is `0` does
NOT stop `readNext`; the loop continues scanning and returns the next
well-formed record.  Here the stream holds a complete record
(`len=1`, payload `[9]`, flag `0`) followed by a pushed entry, and
`readNext` returns that later entry instead of raising
`end_of_stream`. -/
theorem c5_counterexample :
    readNextBytes ([1, 0, 0, 0, 9, 0] ++ pushBytes 7 ⟨1, 2, 3, 4, [10, 20]⟩) =
      .entry (some ⟨1, 2, 3, 4, [10, 20]⟩) [] := by
  have h := readNextBytes_record [9] (pushBytes 7 ⟨1, 2, 3, 4, [10, 20]⟩) 0 (by norm_num)
  have hshape : toLE 4 ([9] : List Nat).length ++ (([9] ++ [0]) ++
      pushBytes 7 ⟨1, 2, 3, 4, [10, 20]⟩) =
      [1, 0, 0, 0, 9, 0] ++ pushBytes 7 ⟨1, 2, 3, 4, [10, 20]⟩ := by
    norm_num [toLE]
  rw [hshape] at h
  rw [h]
  simp only [if_pos rfl]
  have := readNextBytes_pushBytes 7 ⟨1, 2, 3, 4, [10, 20]⟩ [] (by norm_num) (by norm_num)
    (by norm_num) (by norm_num) (by norm_num)
    (by norm_num [payloadOf, serializeEntry, toLE])
  rw [List.append_nil] at this
  exact this

/-- C5 amended: on a complete u32 header and complete payload whose
trailing valid-flag byte is `0`, `readNext` treats the record as
zero-fill padding (from an earlier torn-tail repair), skips it, and
continues scanning at the next record; `end_of_stream` is raised at a
short header or short payload, not here. -/
theorem c5_amended_skip (payload rest : List Nat)
    (h : payload.length < 100 * 2 ^ 20) :
    readNextBytes (toLE 4 payload.length ++ ((payload ++ [0]) ++ rest)) =
      readNextBytes rest := by
  rw [readNextBytes_record _ _ _ h]
  simp

theorem c5_amended_skip_witness :
    (([9] : List Nat).length < 100 * 2 ^ 20) ∧
    readNextBytes (toLE 4 ([9] : List Nat).length ++ (([9] ++ [0]) ++ [])) =
      readNextBytes [] :=
  ⟨by norm_num, c5_amended_skip [9] [] (by norm_num)⟩

/-! ## Wire transport: simultaneous-open tiebreak
(`Peer::onIncomingConnection` in `fdbrpc/FlowTransport.actor.cpp`)

`NetworkAddress` (from `flow/network.h`) orders by `flags`, then `ip`,
then `port`.  `IPAddress` holds either a v4 word or a v6 16-byte value
in a `std::variant`, whose ordering compares the alternative index
first (v4 before v6) and then the held value. -/

structure IPAddr where
  isV6 : Bool
  val : Nat
  deriving DecidableEq

def IPAddr.ltb (x y : IPAddr) : Bool :=
  (!x.isV6 && y.isV6) || (x.isV6 == y.isV6 && decide (x.val < y.val))

structure NetAddr where
  ip : IPAddr
  port : Nat
  flags : Nat
  deriving DecidableEq

/-- `NetworkAddress::operator<`: flags, then ip, then port. -/
def NetAddr.ltb (x y : NetAddr) : Bool :=
  if x.flags ≠ y.flags then decide (x.flags < y.flags)
  else if x.ip ≠ y.ip then IPAddr.ltb x.ip y.ip
  else decide (x.port < y.port)

/-- `FLAG_PRIVATE = 1`; `isPublic()` is `!(flags & FLAG_PRIVATE)`. -/
def NetAddr.isPublic (a : NetAddr) : Bool := a.flags % 2 = 0

/-- `FLAG_TLS = 2`; `isTLS()` is `(flags & FLAG_TLS) != 0`. -/
def NetAddr.isTLS (a : NetAddr) : Bool := a.flags / 2 % 2 = 1

theorem IPAddr.ltb_asymm (x y : IPAddr) (h : IPAddr.ltb x y = true) :
    IPAddr.ltb y x = false := by
  rcases x with ⟨xv, xn⟩
  rcases y with ⟨yv, yn⟩
  simp [IPAddr.ltb] at h ⊢
  cases xv <;> cases yv <;> simp_all <;> omega

theorem NetAddr.ltb_asymmetric (x y : NetAddr) (h : NetAddr.ltb x y = true) :
    NetAddr.ltb y x = false := by
  unfold NetAddr.ltb at h ⊢
  split_ifs at h ⊢ <;>
    first
    | (exact IPAddr.ltb_asymm _ _ h)
    | (simp_all; omega)
    | simp_all

inductive IncomingDecision where
  /-- Cancel the current outgoing connection attempt and adopt the
  incoming connection. -/
  | keepIncoming
  /-- Keep the prior outgoing connection; cancel the incoming reader
  and close the incoming connection. -/
  | keepOutgoing
  /-- `throw address_in_use()`. -/
  | throwAddressInUse
  deriving DecidableEq

/-- The `compatibleAddr` computed by `Peer::onIncomingConnection`: the
local secondary address when it exists and matches the destination's
TLS-ness, otherwise the primary local address. -/
def compatibleAddrFor (localAddr : NetAddr) (secondary : Option NetAddr)
    (destination : NetAddr) : NetAddr :=
  match secondary with
  | some s => if s.isTLS = destination.isTLS then s else localAddr
  | none => localAddr

/-- Decision logic of `Peer::onIncomingConnection`: throw
`address_in_use` for a non-public destination with a live outgoing
connection; keep the incoming connection when the destination is not
public, the outgoing connection is idle, or the destination's
canonical address is larger than the compatible local address;
otherwise close the redundant incoming connection. -/
def onIncomingConnection (destination : NetAddr) (outgoingConnectionIdle : Bool)
    (localAddr : NetAddr) (secondary : Option NetAddr) : IncomingDecision :=
  if ¬destination.isPublic ∧ ¬outgoingConnectionIdle then .throwAddressInUse
  else if ¬destination.isPublic ∨ outgoingConnectionIdle = true ∨
      NetAddr.ltb (compatibleAddrFor localAddr secondary destination) destination then
    .keepIncoming
  else .keepOutgoing

/-- C9: when two public peers dial each other concurrently (both
outgoing connections non-idle, single local address each), the peer
with the lexicographically larger canonical address keeps its outgoing
connection and closes the incoming one, while the smaller peer adopts
the incoming connection (which is the larger peer's outgoing one) — so
exactly one connection survives, the larger peer's outgoing one;
moreover, for a public destination the handler keeps its own outgoing
connection and closes the redundant incoming one precisely when the
destination's canonical address is not greater than the compatible
local address and the outgoing connection is not idle. -/
theorem c9_simultaneous_open (a b : NetAddr)
    (ha : a.isPublic = true) (hb : b.isPublic = true)
    (hab : NetAddr.ltb a b = true) :
    (onIncomingConnection a false b none = .keepOutgoing ∧
     onIncomingConnection b false a none = .keepIncoming) ∧
    (∀ (dest locAddr : NetAddr) (secondary : Option NetAddr) (idle : Bool),
      dest.isPublic = true →
      (onIncomingConnection dest idle locAddr secondary = .keepOutgoing ↔
        (NetAddr.ltb (compatibleAddrFor locAddr secondary dest) dest = false ∧
          idle = false))) := by
  constructor
  · constructor
    · have hba := NetAddr.ltb_asymmetric a b hab
      simp [onIncomingConnection, ha, compatibleAddrFor, hba]
    · simp [onIncomingConnection, hb, compatibleAddrFor, hab]
  · intro dest locAddr secondary idle hpub
    cases idle with
    | false =>
      by_cases hlt : NetAddr.ltb (compatibleAddrFor locAddr secondary dest) dest = true
      · simp [onIncomingConnection, hpub, hlt]
      · simp [onIncomingConnection, hpub, hlt]
    | true => simp [onIncomingConnection, hpub]

theorem c9_simultaneous_open_witness :
    ((⟨⟨false, 1⟩, 1, 0⟩ : NetAddr).isPublic = true ∧
     (⟨⟨false, 2⟩, 1, 0⟩ : NetAddr).isPublic = true ∧
     NetAddr.ltb ⟨⟨false, 1⟩, 1, 0⟩ ⟨⟨false, 2⟩, 1, 0⟩ = true) ∧
    (onIncomingConnection ⟨⟨false, 1⟩, 1, 0⟩ false ⟨⟨false, 2⟩, 1, 0⟩ none =
        .keepOutgoing ∧
      onIncomingConnection ⟨⟨false, 2⟩, 1, 0⟩ false ⟨⟨false, 1⟩, 1, 0⟩ none =
        .keepIncoming) :=
  ⟨by decide,
   (c9_simultaneous_open ⟨⟨false, 1⟩, 1, 0⟩ ⟨⟨false, 2⟩, 1, 0⟩
     (by decide) (by decide) (by decide)).1⟩

/-! ## TLog server state machine

One `TLogState` combines the fields of the single live generation
(`LogData`) with the process-wide fields of `TLogData` that the claims
touch.  Each transition models one critical section of the actor code
(the code between two suspension points), so the state seen "between
any two atomic state transitions" is exactly the states of this
relation.  Byte counters are `Int` (they are `int64_t`).  The disk
queue is modeled as the list of pushed queue entries.

`VERSION_MESSAGES_ENTRY_BYTES_WITH_OVERHEAD`,
`TLOG_MESSAGE_BLOCK_BYTES` and `DESIRED_TOTAL_BYTES` are knobs, kept
abstract; the per-block accounting expression
`int64_t(block.size()) * SERVER_KNOBS->TLOG_MESSAGE_BLOCK_OVERHEAD_FACTOR`
(a double multiplication truncated to `int64_t`, identical at the
`bytesInput` site in `commitMessages` and the `bytesDurable` site in
`updatePersistentData`) is kept abstract as `blockWeight`. -/

structure Knobs where
  entryOverheadBytes : Nat
  blockBytes : Nat
  blockWeight : Nat → Nat
  desiredTotalBytes : Nat

/-- `Tag` from `fdbclient/FDBTypes.h`: signed 8-bit locality, unsigned
16-bit id. -/
structure TagM where
  locality : Int
  id : Nat
  deriving DecidableEq

def tagLocalitySpecial : Int := -1
def tagLocalityLogRouter : Int := -2
def tagLocalitySatellite : Int := -5

def txsTag : TagM := ⟨tagLocalitySpecial, 1⟩

/-- Per-tag state (`LogData::TagData`).  `versionMessages` keeps
`(version, message byte size)` pairs in append order. -/
structure TagData where
  popped : Nat
  nothingPersistent : Bool
  poppedRecently : Bool
  requiresPoppedLocationUpdate : Bool
  unpoppedRecovered : Bool
  versionMessages : List (Nat × Nat)
  deriving DecidableEq

/-- A tagged message of a commit batch (`TagsAndMessage`): its raw byte
size and its tag set. -/
structure TaggedMsg where
  size : Nat
  tags : List TagM
  deriving DecidableEq

/-- A framed disk-queue record (`TLogQueueEntryRef`), with the
generation id left implicit (single generation). -/
structure QueueEntryM where
  version : Nat
  knownCommittedVersion : Nat
  messages : List TaggedMsg
  deriving DecidableEq

def lookupTag : List (TagM × TagData) → TagM → Option TagData
  | [], _ => none
  | (t, d) :: r, tag => if t = tag then some d else lookupTag r tag

def setTag : List (TagM × TagData) → TagM → TagData → List (TagM × TagData)
  | [], tag, d => [(tag, d)]
  | (t, d0) :: r, tag, d => if t = tag then (tag, d) :: r else (t, d0) :: setTag r tag d

structure TLogState where
  version : Nat
  queueCommittedVersion : Nat
  persistentDataVersion : Nat
  persistentDataDurableVersion : Nat
  knownCommittedVersion : Nat
  durableKnownCommittedVersion : Nat
  minKnownCommittedVersion : Nat
  recoveredAt : Nat
  stopped : Bool
  locality : Int
  logRouterTags : Nat
  allTags : List TagM
  tagData : List (TagM × TagData)
  messageBlocks : List (Nat × Nat)
  blockCapLeft : Nat
  logBytesInput : Int
  logBytesDurable : Int
  diskQueue : List QueueEntryM
  removed : Bool
  sharedBytesInput : Int
  sharedBytesDurable : Int
  overheadBytesInput : Int
  overheadBytesDurable : Int
  ignorePopRequest : Bool
  ignorePopDeadline : Nat
  toBePopped : List (TagM × Nat)
  logSystemValid : Bool
  deriving DecidableEq

/-- The popped version chosen by `LogData::createTagData`: a tag that
is not a log-router tag, is absent from `allTags` (when `allTags` is
nonempty) and whose requested popped version is at most `recoveredAt`
starts at `recoveredAt + 1`. -/
def createTagPopped (s : TLogState) (tag : TagM) (popped : Nat) : Nat :=
  if tag.locality ≠ tagLocalityLogRouter ∧ s.allTags ≠ [] ∧ tag ∉ s.allTags ∧
      popped ≤ s.recoveredAt
  then s.recoveredAt + 1 else popped

def createTagData (s : TLogState) (tag : TagM) (popped : Nat)
    (nothingPersistent poppedRecently unpoppedRecovered : Bool) : TagData :=
  ⟨createTagPopped s tag popped, nothingPersistent, poppedRecently, false,
    unpoppedRecovered, []⟩

/-! ### `commitMessages` (lines 1025-1116) -/

/-- The locality admission filter of `commitMessages`: on a satellite
generation only txs and log-router tags are kept; otherwise the
generation must be special-locality, match the tag's locality, or the
tag must have a negative (routing-class) locality. -/
def tagAdmitted (locality : Int) (tag : TagM) : Bool :=
  if locality = tagLocalitySatellite then
    decide (tag = txsTag ∨ tag.locality = tagLocalityLogRouter)
  else
    decide (locality = tagLocalitySpecial ∨ locality = tag.locality ∨ tag.locality < 0)

structure CommitFold where
  tagData : List (TagM × TagData)
  appends : Nat
  blocksPushed : List (Nat × Nat)
  capLeft : Nat
  curBlock : Nat
  msgRemaining : Nat

/-- Processing of one tag of one message inside `commitMessages`:
locality filter, log-router id mod-mapping, lazy tag creation, and the
append guarded by `version >= tagData->popped`. -/
def processTagKnown (s : TLogState) (version sz : Nat)
    (acc : List (TagM × TagData) × Nat) (tag : TagM) :
    List (TagM × TagData) × Nat :=
  match lookupTag acc.1 tag with
  | some td =>
    if td.popped ≤ version then
      (setTag acc.1 tag
        { td with versionMessages := td.versionMessages ++ [(version, sz)] },
       acc.2 + 1)
    else acc
  | none =>
    let td := createTagData s tag 0 true true false
    if td.popped ≤ version then
      (setTag (setTag acc.1 tag td) tag
        { td with versionMessages := td.versionMessages ++ [(version, sz)] },
       acc.2 + 1)
    else (setTag acc.1 tag td, acc.2)

def processTag (s : TLogState) (version sz : Nat)
    (acc : List (TagM × TagData) × Nat) (tag0 : TagM) :
    List (TagM × TagData) × Nat :=
  if tagAdmitted s.locality tag0 then
    if tag0.locality = tagLocalityLogRouter ∧ s.logRouterTags = 0 then acc
    else
      processTagKnown s version sz acc
        (if tag0.locality = tagLocalityLogRouter then
          ⟨tag0.locality, tag0.id % s.logRouterTags⟩ else tag0)
  else acc

/-- The per-message loop of `commitMessages`: block-capacity tracking
(push the current block and open a fresh one when the message does not
fit) followed by the per-tag processing. -/
def commitLoop (k : Knobs) (s : TLogState) (version : Nat) :
    CommitFold → List TaggedMsg → CommitFold
  | st, [] => st
  | st, m :: rest =>
    let st1 := if st.capLeft < m.size then
        { st with blocksPushed := st.blocksPushed ++ [(version, st.curBlock)],
                  capLeft := max k.blockBytes st.msgRemaining,
                  curBlock := 0 }
      else st
    let st2 := { st1 with capLeft := st1.capLeft - m.size, curBlock := st1.curBlock + m.size }
    let td2 := (m.tags).foldl (processTag s version m.size) (st2.tagData, st2.appends)
    commitLoop k s version
      { st2 with
        tagData := td2.1
        appends := td2.2
        msgRemaining := st2.msgRemaining - m.size } rest

/-- Model of `commitMessages`: appends the batch's messages to the
shared arena blocks, indexes each admitted tag's deque, and advances
the byte-input counters by the block bytes (weighted by the overhead
factor) plus the per-entry overhead. -/
def commitMessages (k : Knobs) (s : TLogState) (version : Nat)
    (msgs : List TaggedMsg) : TLogState :=
  if msgs = [] then s
  else
    let msgSize := (msgs.map (·.size)).sum
    let capLeft0 := if s.messageBlocks = [] then max k.blockBytes msgSize else s.blockCapLeft
    let stF := commitLoop k s version ⟨s.tagData, 0, [], capLeft0, 0, msgSize⟩ msgs
    let blocks := stF.blocksPushed ++ [(version, stF.curBlock)]
    let addedBlockBytes : Int := ((blocks.map (fun b => k.blockWeight b.2)).sum : Nat)
    let overheadBytes : Int := (k.entryOverheadBytes * stF.appends : Nat)
    { s with tagData := stF.tagData,
             messageBlocks := s.messageBlocks ++ blocks,
             blockCapLeft := stF.capLeft,
             logBytesInput := s.logBytesInput + (addedBlockBytes + overheadBytes),
             sharedBytesInput := s.sharedBytesInput + (addedBlockBytes + overheadBytes),
             overheadBytesInput := s.overheadBytesInput + overheadBytes }

/-! ### Commit path (`tLogCommit`, lines 1864-2006) and the
queue committer (`doQueueCommit`, lines 1568-1615) -/

structure CommitReq where
  prevVersion : Nat
  version : Nat
  knownCommittedVersion : Nat
  minKnownCommittedVersion : Nat
  messages : List TaggedMsg
  deriving DecidableEq

/-- Model of the `tLogCommit` critical section: the unconditional
`minKnownCommittedVersion` update, the `tlog_stopped` rejection, and —
only when `logData->version.get() == req.prevVersion` (the
not-a-duplicate admission check) — the message-processing work:
`commitMessages`, the `knownCommittedVersion` update, the disk-queue
push of the framed queue entry, and `version.set(req.version)`. -/
def tLogCommit (k : Knobs) (s : TLogState) (req : CommitReq) : TLogState :=
  let s0 :=
    { s with
      minKnownCommittedVersion := max s.minKnownCommittedVersion req.minKnownCommittedVersion }
  if s0.stopped then s0
  else if s0.version = req.prevVersion then
    let s1 := commitMessages k s0 req.version req.messages
    let s2 :=
      { s1 with
        knownCommittedVersion := max s1.knownCommittedVersion req.knownCommittedVersion }
    let s3 :=
      { s2 with
        diskQueue := s2.diskQueue ++ [QueueEntryM.mk req.version s2.knownCommittedVersion req.messages] }
    { s3 with version := req.version }
  else s0

/-- The value sent by `req.reply.send(logData->durableKnownCommittedVersion)`
once `queueCommittedVersion ≥ req.version`. -/
def commitReplyValue (s : TLogState) : Nat := s.durableKnownCommittedVersion

/-- Model of one `doQueueCommit`: `ver` and `knownCommittedVersion` are
captured at entry; after the disk commit the generation's
`durableKnownCommittedVersion` and `queueCommittedVersion.set(ver)`
land. -/
def doQueueCommit (s : TLogState) : TLogState :=
  { s with durableKnownCommittedVersion := s.knownCommittedVersion,
           queueCommittedVersion := s.version }

/-! ### Pop path (`tLogPopCore` lines 1157-1201, `tLogPop`
lines 1203-1230) -/

def eraseCount (before : Nat) (l : List (Nat × Nat)) : Nat :=
  (l.takeWhile (fun p => p.1 < before)).length

/-- `TagData::eraseMessagesBefore`: pop entries from the front while
their version is `< before`. -/
def eraseMessages (before : Nat) (l : List (Nat × Nat)) : List (Nat × Nat) :=
  l.dropWhile (fun p => p.1 < before)

/-- Applies `eraseMessagesBefore(before)` to one tag, crediting
`messagesErased * VERSION_MESSAGES_ENTRY_BYTES_WITH_OVERHEAD` to the
generation's and process's `bytesDurable` and to
`overheadBytesDurable`. -/
def eraseTagBefore (k : Knobs) (s : TLogState) (tag : TagM) (before : Nat) : TLogState :=
  match lookupTag s.tagData tag with
  | none => s
  | some td =>
    let cnt := eraseCount before td.versionMessages
    { s with
      tagData := setTag s.tagData tag
        ({ td with versionMessages := eraseMessages before td.versionMessages })
      logBytesDurable := s.logBytesDurable + (k.entryOverheadBytes * cnt : Nat)
      sharedBytesDurable := s.sharedBytesDurable + (k.entryOverheadBytes * cnt : Nat)
      overheadBytesDurable := s.overheadBytesDurable + (k.entryOverheadBytes * cnt : Nat) }

/-- `toBePopped[inputTag] := max(existing, to)` (the map update of
`tLogPopCore` when pops are being ignored). -/
def setPop : List (TagM × Nat) → TagM → Nat → List (TagM × Nat)
  | [], tag, v => [(tag, v)]
  | (t, w) :: r, tag, v =>
    if t = tag then (t, if w < v then v else w) :: r else (t, w) :: setPop r tag v

def lookupPop : List (TagM × Nat) → TagM → Option Nat
  | [], _ => none
  | (t, w) :: r, tag => if t = tag then some w else lookupPop r tag

/-- The body of `tLogPopCore` after pseudo-locality translation: on
the (possibly translated) tag, create missing tag data with the popped
version, or advance `popped` and, when the popped version exceeds
`persistentDataDurableVersion`, erase the in-memory messages strictly
below it. -/
def popApply (k : Knobs) (s : TLogState) (tag : TagM) (upTo : Nat) : TLogState :=
  match lookupTag s.tagData tag with
  | none =>
    { s with tagData := setTag s.tagData tag (createTagData s tag upTo true true false) }
  | some td =>
    if td.popped < upTo then
      let td2 :=
        { td with
          popped := upTo
          poppedRecently := true
          requiresPoppedLocationUpdate := true
          unpoppedRecovered :=
            if td.unpoppedRecovered ∧ s.recoveredAt < upTo then false
            else td.unpoppedRecovered }
      let s1 := { s with tagData := setTag s.tagData tag td2 }
      if s.persistentDataDurableVersion < upTo then eraseTagBefore k s1 tag upTo else s1
    else s

/-- Model of `tLogPopCore`.  While `ignorePopRequest` is set, a pop for
any tag other than `txsTag` is only recorded into `toBePopped`;
otherwise pseudo-locality tags are translated via the log system (kept
abstract as `isPseudo`/`popPseudo`, only reachable when the log system
is valid) and the pop is applied by `popApply`. -/
def tLogPopCore (k : Knobs) (isPseudo : Int → Bool) (popPseudo : Int → Nat → Nat)
    (s : TLogState) (inputTag : TagM) (toV : Nat) : TLogState :=
  if s.ignorePopRequest ∧ inputTag ≠ txsTag then
    { s with toBePopped := setPop s.toBePopped inputTag toV }
  else if s.logSystemValid ∧ isPseudo inputTag.locality then
    popApply k s ⟨tagLocalityLogRouter, inputTag.id⟩ (popPseudo inputTag.locality toV)
  else
    popApply k s ⟨inputTag.locality, inputTag.id⟩ toV

/-- Model of `tLogPop`: when `ignorePopRequest` is set and the deadline
has passed, pops are re-enabled and every deferred pop in `toBePopped`
is replayed through `tLogPopCore` before the request's own pop is
processed. -/
def tLogPop (k : Knobs) (isPseudo : Int → Bool) (popPseudo : Int → Nat → Nat)
    (s : TLogState) (tag : TagM) (toV : Nat) (now : Nat) : TLogState :=
  if s.ignorePopRequest ∧ s.ignorePopDeadline < now then
    let s1 := { s with ignorePopRequest := false, ignorePopDeadline := 0 }
    let s2 := s.toBePopped.foldl
      (fun acc p => tLogPopCore k isPseudo popPseudo acc p.1 p.2) s1
    tLogPopCore k isPseudo popPseudo { s2 with toBePopped := [] } tag toV
  else tLogPopCore k isPseudo popPseudo s tag toV

/-! ### Spill loop (`updatePersistentData` lines 748-907, driven by
`updateStorage` lines 912-1015)

`updatePersistentData` is split at its `persistentData->commit()`
await: `spillWrite` covers everything before the commit becomes
durable (per-tag `eraseMessagesBefore(popped)`,
`updatePersistentPopped`, the spill scan that clears
`nothingPersistent`, and `persistentDataVersion := next`), and
`spillDurable` covers everything after (`persistentDataDurableVersion
:= next`, erasing the spilled entries from memory, popping message
blocks, and crediting `bytesDurable`). -/

/-- `updatePersistentPopped`: once per spill for a recently-popped tag,
persist the popped version; when something was persistent and the
popped version exceeds `persistentDataVersion`, the cleared range
covered everything, so `nothingPersistent := true`. -/
def updatePersistentPopped (pdv : Nat) (td : TagData) : TagData :=
  if td.poppedRecently then
    let td1 := { td with poppedRecently := false }
    if td.nothingPersistent then td1
    else if pdv < td.popped then { td1 with nothingPersistent := true } else td1
  else td

def spillWriteTags (pdv next : Nat) :
    List (TagM × TagData) → List (TagM × TagData) × Nat
  | [] => ([], 0)
  | (t, td) :: r =>
    let cnt := eraseCount td.popped td.versionMessages
    let td1 := { td with versionMessages := eraseMessages td.popped td.versionMessages }
    let td2 := updatePersistentPopped pdv td1
    let td3 := if td2.versionMessages.any (fun p => p.1 ≤ next) then
        { td2 with nothingPersistent := false } else td2
    let rec2 := spillWriteTags pdv next r
    ((t, td3) :: rec2.1, cnt + rec2.2)

def spillWrite (k : Knobs) (s : TLogState) (next : Nat) : TLogState :=
  let res := spillWriteTags s.persistentDataVersion next s.tagData
  { s with
    tagData := res.1
    persistentDataVersion := next
    logBytesDurable := s.logBytesDurable + (k.entryOverheadBytes * res.2 : Nat)
    sharedBytesDurable := s.sharedBytesDurable + (k.entryOverheadBytes * res.2 : Nat)
    overheadBytesDurable := s.overheadBytesDurable + (k.entryOverheadBytes * res.2 : Nat) }

def spillDurableTags (bound : Nat) :
    List (TagM × TagData) → List (TagM × TagData) × Nat
  | [] => ([], 0)
  | (t, td) :: r =>
    let cnt := eraseCount bound td.versionMessages
    let td1 := { td with versionMessages := eraseMessages bound td.versionMessages }
    let rec2 := spillDurableTags bound r
    ((t, td1) :: rec2.1, cnt + rec2.2)

/-- Total spill-block weight (`TLOG_MESSAGE_BLOCK_OVERHEAD_FACTOR`-scaled
block bytes) of a list of message blocks. -/
def blocksWeight (k : Knobs) (l : List (Nat × Nat)) : Nat :=
  (l.map (fun b => k.blockWeight b.2)).sum

def spillDurable (k : Knobs) (s : TLogState) : TLogState :=
  let res := spillDurableTags (s.persistentDataVersion + 1) s.tagData
  let poppedBlocks := s.messageBlocks.takeWhile (fun b => b.1 ≤ s.persistentDataVersion)
  let keptBlocks := s.messageBlocks.dropWhile (fun b => b.1 ≤ s.persistentDataVersion)
  let blockBytes : Int := (blocksWeight k poppedBlocks : Nat)
  { s with
    persistentDataDurableVersion := s.persistentDataVersion
    tagData := res.1
    messageBlocks := keptBlocks
    logBytesDurable := s.logBytesDurable + (k.entryOverheadBytes * res.2 : Nat) + blockBytes
    sharedBytesDurable := s.sharedBytesDurable + (k.entryOverheadBytes * res.2 : Nat) + blockBytes
    overheadBytesDurable := s.overheadBytesDurable + (k.entryOverheadBytes * res.2 : Nat) }

/-- The `~LogData` accounting when a generation is removed:
`tLogData->bytesDurable += bytesInput.getValue() - bytesDurable.getValue()`. -/
def removeLog (s : TLogState) : TLogState :=
  { s with
    removed := true
    sharedBytesDurable := s.sharedBytesDurable + (s.logBytesInput - s.logBytesDurable) }

/-- `tLogLock` marks the generation stopped. -/
def stopLog (s : TLogState) : TLogState := { s with stopped := true }

/-- The transition relation of the TLog server.  The guards are
exactly the facts the actor code has established when the modeled
critical section runs: a commit request carries `prevVersion <
version` (versions are handed out strictly increasing by the master);
`commitQueue` only starts a disk commit when `version` is ahead of
`queueCommittedVersion`; `updateStorage` picks `nextVersion >
persistentDataVersion` and waits for `queueCommittedVersion ≥
nextVersion` before calling `updatePersistentData`, whose entry
asserts `persistentDataVersion == persistentDataDurableVersion`; the
durable half of a spill runs when a spill is in flight. -/
inductive Step (k : Knobs) (isPseudo : Int → Bool) (popPseudo : Int → Nat → Nat) :
    TLogState → TLogState → Prop
  | commit (s : TLogState) (req : CommitReq) (hr : s.removed = false)
      (hwf : req.prevVersion < req.version) :
      Step k isPseudo popPseudo s (tLogCommit k s req)
  | queueCommit (s : TLogState) (hr : s.removed = false)
      (h : s.queueCommittedVersion < s.version) :
      Step k isPseudo popPseudo s (doQueueCommit s)
  | spillW (s : TLogState) (next : Nat) (hr : s.removed = false)
      (h1 : s.persistentDataVersion < next) (h2 : next ≤ s.queueCommittedVersion)
      (h3 : s.persistentDataVersion = s.persistentDataDurableVersion) :
      Step k isPseudo popPseudo s (spillWrite k s next)
  | spillD (s : TLogState) (hr : s.removed = false)
      (h : s.persistentDataDurableVersion < s.persistentDataVersion) :
      Step k isPseudo popPseudo s (spillDurable k s)
  | pop (s : TLogState) (tag : TagM) (toV now : Nat) (hr : s.removed = false) :
      Step k isPseudo popPseudo s (tLogPop k isPseudo popPseudo s tag toV now)
  | stop (s : TLogState) (hr : s.removed = false) :
      Step k isPseudo popPseudo s (stopLog s)
  | remove (s : TLogState) (hr : s.removed = false) :
      Step k isPseudo popPseudo s (removeLog s)

/-- The state of a generation when it starts serving: on a fresh
recruit all four version fields are `0`; after a restart recovery sets
`version = persistentDataVersion = persistentDataDurableVersion` to
the stored version and `queueCommittedVersion` to the recovered
version.  Both are instances of `initState` with all four equal. -/
def initState (v0 : Nat) (locality : Int) (lrTags : Nat) (allTags : List TagM)
    (recoveredAt : Nat) (logSystemValid : Bool) : TLogState where
  version := v0
  queueCommittedVersion := v0
  persistentDataVersion := v0
  persistentDataDurableVersion := v0
  knownCommittedVersion := 0
  durableKnownCommittedVersion := 0
  minKnownCommittedVersion := 0
  recoveredAt := recoveredAt
  stopped := false
  locality := locality
  logRouterTags := lrTags
  allTags := allTags
  tagData := []
  messageBlocks := []
  blockCapLeft := 0
  logBytesInput := 0
  logBytesDurable := 0
  diskQueue := []
  removed := false
  sharedBytesInput := 0
  sharedBytesDurable := 0
  overheadBytesInput := 0
  overheadBytesDurable := 0
  ignorePopRequest := false
  ignorePopDeadline := 0
  toBePopped := []
  logSystemValid := logSystemValid

def Reachable (k : Knobs) (isPseudo : Int → Bool) (popPseudo : Int → Nat → Nat)
    (s0 s : TLogState) : Prop :=
  Relation.ReflTransGen (Step k isPseudo popPseudo) s0 s

/-! ### Peek path (`tLogPeekMessages` lines 1294-1553) -/

structure PeekReq where
  beginVersion : Nat
  tag : TagM
  returnIfBlocked : Bool
  onlySpilled : Bool
  deriving DecidableEq

inductive PeekOutcome where
  /-- `req.reply.sendError(end_of_stream())` on `returnIfBlocked`. -/
  | errEndOfStream
  /-- The actor suspends in `version.whenAtLeast(req.begin)`; no reply
  yet. -/
  | waiting
  /-- `req.begin ≤ persistentDataDurableVersion`: the reply is
  assembled from spilled data through the persistent store and disk
  queue, outside this model. -/
  | needsDisk
  /-- A reply: message list as `(version, size)` pairs, the `end`
  field, the `popped` field if set, and the `onlySpilled` field. -/
  | reply (messages : List (Nat × Nat)) (endVersion : Nat)
      (poppedField : Option Nat) (onlySpilled : Bool)
  deriving DecidableEq

/-- `poppedVersion`: a tag with no `TagData` reports `recoveredAt`. -/
def poppedVersionOf (s : TLogState) (tag : TagM) : Nat :=
  match lookupTag s.tagData tag with
  | none => s.recoveredAt
  | some td => td.popped

/-- The message-assembly loop of `peekMessagesFromMemory`: iterate the
deque suffix, and at each version boundary stop when the bytes written
so far reach `DESIRED_TOTAL_BYTES`, setting `end` to the previous
version + 1.  Each version boundary writes a 4-byte `-1` marker and an
8-byte version before the message bytes. -/
def peekLoop (k : Knobs) (acc : List (Nat × Nat)) (bytes : Nat)
    (currentVersion : Option Nat) (endV : Nat) :
    List (Nat × Nat) → List (Nat × Nat) × Nat
  | [] => (acc, endV)
  | (v, sz) :: r =>
    if currentVersion ≠ some v then
      if k.desiredTotalBytes ≤ bytes then
        (acc, (match currentVersion with | none => 0 | some cv => cv + 1))
      else peekLoop k (acc ++ [(v, sz)]) (bytes + 12 + sz) (some v) endV r
    else peekLoop k (acc ++ [(v, sz)]) (bytes + sz) (some v) endV r

/-- `peekMessagesFromMemory`: reads the tag's deque from
`max(req.begin, persistentDataDurableVersion + 1)` on. -/
def peekFromMemory (k : Knobs) (s : TLogState) (req : PeekReq) :
    List (Nat × Nat) × Nat :=
  let deque := match lookupTag s.tagData req.tag with
    | none => []
    | some td => td.versionMessages
  let beginV := max req.beginVersion (s.persistentDataDurableVersion + 1)
  peekLoop k [] 0 none (s.version + 1) (deque.dropWhile (fun p => p.1 < beginV))

/-- Model of `tLogPeekMessages` for requests without a subscriber
sequence.  The spilled-read branch (`req.begin ≤
persistentDataDurableVersion`) resolves through the persistent store
and disk queue and is outside this model (`needsDisk`); every reply
this function produces is computed before or without that branch. -/
def tLogPeekMessages (k : Knobs) (s : TLogState) (req : PeekReq) : PeekOutcome :=
  if req.returnIfBlocked ∧ s.version < req.beginVersion then .errEndOfStream
  else if s.version < req.beginVersion then .waiting
  else
    let poppedVer := poppedVersionOf s req.tag
    if req.beginVersion < poppedVer then .reply [] poppedVer (some poppedVer) false
    else if req.beginVersion ≤ s.persistentDataDurableVersion then .needsDisk
    else if req.onlySpilled then
      .reply [] (s.persistentDataDurableVersion + 1) none false
    else
      let res := peekFromMemory k s req
      .reply res.1 res.2 none false

/-! ### Association-list lemmas -/

theorem lookupTag_setTag_self (l : List (TagM × TagData)) (t : TagM) (d : TagData) :
    lookupTag (setTag l t d) t = some d := by
  induction l with
  | nil => simp [setTag, lookupTag]
  | cons p r ih =>
    by_cases h : p.1 = t
    · simp [setTag, lookupTag, h]
    · simp [setTag, lookupTag, h, ih]

theorem lookupTag_setTag_ne (l : List (TagM × TagData)) (t u : TagM) (d : TagData)
    (h : u ≠ t) : lookupTag (setTag l t d) u = lookupTag l u := by
  have htu : ¬t = u := fun hh => h hh.symm
  induction l with
  | nil => simp [setTag, lookupTag, htu]
  | cons p r ih =>
    by_cases hp : p.1 = t
    · simp [setTag, lookupTag, hp, htu]
    · simp [setTag, lookupTag, hp, ih]

theorem lookupPop_setPop_self (l : List (TagM × Nat)) (t : TagM) (v : Nat) :
    lookupPop (setPop l t v) t =
      some (match lookupPop l t with
            | none => v
            | some w => max w v) := by
  induction l with
  | nil => simp [setPop, lookupPop]
  | cons p r ih =>
    by_cases h : p.1 = t
    · rcases p with ⟨pt, pw⟩
      simp only at h
      subst h
      simp [setPop, lookupPop, Nat.max_def]
      split_ifs <;> omega
    · rcases p with ⟨pt, pw⟩
      simp only at h
      simp [setPop, lookupPop, h, ih]

/-! ### Field-preservation lemmas for `commitMessages` -/

theorem commitMessages_version (k : Knobs) (s : TLogState) (v : Nat)
    (msgs : List TaggedMsg) : (commitMessages k s v msgs).version = s.version := by
  unfold commitMessages
  by_cases h : msgs = [] <;> simp [h]

theorem commitMessages_diskQueue (k : Knobs) (s : TLogState) (v : Nat)
    (msgs : List TaggedMsg) : (commitMessages k s v msgs).diskQueue = s.diskQueue := by
  unfold commitMessages
  by_cases h : msgs = [] <;> simp [h]

theorem commitMessages_stopped (k : Knobs) (s : TLogState) (v : Nat)
    (msgs : List TaggedMsg) : (commitMessages k s v msgs).stopped = s.stopped := by
  unfold commitMessages
  by_cases h : msgs = [] <;> simp [h]

theorem commitMessages_queueCommittedVersion (k : Knobs) (s : TLogState) (v : Nat)
    (msgs : List TaggedMsg) :
    (commitMessages k s v msgs).queueCommittedVersion = s.queueCommittedVersion := by
  unfold commitMessages
  by_cases h : msgs = [] <;> simp [h]

theorem commitMessages_persistentDataVersion (k : Knobs) (s : TLogState) (v : Nat)
    (msgs : List TaggedMsg) :
    (commitMessages k s v msgs).persistentDataVersion = s.persistentDataVersion := by
  unfold commitMessages
  by_cases h : msgs = [] <;> simp [h]

theorem commitMessages_pddv (k : Knobs) (s : TLogState) (v : Nat)
    (msgs : List TaggedMsg) :
    (commitMessages k s v msgs).persistentDataDurableVersion =
      s.persistentDataDurableVersion := by
  unfold commitMessages
  by_cases h : msgs = [] <;> simp [h]

theorem commitMessages_kcv (k : Knobs) (s : TLogState) (v : Nat)
    (msgs : List TaggedMsg) :
    (commitMessages k s v msgs).knownCommittedVersion = s.knownCommittedVersion := by
  unfold commitMessages
  by_cases h : msgs = [] <;> simp [h]

theorem commitMessages_dkcv (k : Knobs) (s : TLogState) (v : Nat)
    (msgs : List TaggedMsg) :
    (commitMessages k s v msgs).durableKnownCommittedVersion =
      s.durableKnownCommittedVersion := by
  unfold commitMessages
  by_cases h : msgs = [] <;> simp [h]

theorem commitMessages_removed (k : Knobs) (s : TLogState) (v : Nat)
    (msgs : List TaggedMsg) : (commitMessages k s v msgs).removed = s.removed := by
  unfold commitMessages
  by_cases h : msgs = [] <;> simp [h]

theorem commitMessages_logBytesDurable (k : Knobs) (s : TLogState) (v : Nat)
    (msgs : List TaggedMsg) :
    (commitMessages k s v msgs).logBytesDurable = s.logBytesDurable := by
  unfold commitMessages
  by_cases h : msgs = [] <;> simp [h]

theorem commitMessages_sharedBytesDurable (k : Knobs) (s : TLogState) (v : Nat)
    (msgs : List TaggedMsg) :
    (commitMessages k s v msgs).sharedBytesDurable = s.sharedBytesDurable := by
  unfold commitMessages
  by_cases h : msgs = [] <;> simp [h]

theorem commitMessages_ignoreFields (k : Knobs) (s : TLogState) (v : Nat)
    (msgs : List TaggedMsg) :
    (commitMessages k s v msgs).ignorePopRequest = s.ignorePopRequest ∧
    (commitMessages k s v msgs).ignorePopDeadline = s.ignorePopDeadline ∧
    (commitMessages k s v msgs).toBePopped = s.toBePopped ∧
    (commitMessages k s v msgs).logSystemValid = s.logSystemValid ∧
    (commitMessages k s v msgs).recoveredAt = s.recoveredAt ∧
    (commitMessages k s v msgs).allTags = s.allTags ∧
    (commitMessages k s v msgs).locality = s.locality ∧
    (commitMessages k s v msgs).logRouterTags = s.logRouterTags := by
  unfold commitMessages
  by_cases h : msgs = [] <;> simp [h]

/-! ### C6: peek against the popped version -/

def sampleKnobs : Knobs := ⟨1, 10, fun n => n, 1000⟩

/-- A state with one tag `(0,3)` whose popped version is 5 and which
still holds one in-memory message at version 5 (commit at version 5
followed by a pop up to 5 erases only versions `< 5`). -/
def samplePeekState : TLogState :=
  { initState 0 (-1) 0 [] 0 false with
    version := 5
    tagData := [(⟨0, 3⟩, ⟨5, false, false, false, false, [(5, 2)]⟩)] }

/-- C6 counterexample: a peek whose `begin` equals `popped(tag)` is NOT
answered with an empty popped-reply; since the check at
TLogServer.actor.cpp:1362 is strict (`poppedVer > req.begin`), the
request falls through to normal assembly and returns the in-memory
message at version 5 with `end = version + 1 = 6 ≠ popped`. -/
theorem c6_counterexample :
    poppedVersionOf samplePeekState ⟨0, 3⟩ = 5 ∧
    tLogPeekMessages sampleKnobs samplePeekState ⟨5, ⟨0, 3⟩, false, false⟩ =
      .reply [(5, 2)] 6 none false := by decide

/-- C6 amended: whenever `popped(tag)` is strictly greater than the
request's begin version (and the request does not have to wait,
`begin ≤ version`), the server replies immediately: no message data,
the `popped` field set, and `end = popped(tag)`. -/
theorem c6_amended_peek_popped (k : Knobs) (s : TLogState) (req : PeekReq)
    (hb : req.beginVersion ≤ s.version)
    (hpop : req.beginVersion < poppedVersionOf s req.tag) :
    tLogPeekMessages k s req =
      .reply [] (poppedVersionOf s req.tag) (some (poppedVersionOf s req.tag)) false := by
  unfold tLogPeekMessages
  have hnl : ¬s.version < req.beginVersion := Nat.not_lt.mpr hb
  rw [if_neg (by simp [hnl]), if_neg hnl, if_pos hpop]

theorem c6_amended_peek_popped_witness :
    ((4 : Nat) ≤ samplePeekState.version ∧
      4 < poppedVersionOf samplePeekState ⟨0, 3⟩) ∧
    tLogPeekMessages sampleKnobs samplePeekState ⟨4, ⟨0, 3⟩, false, false⟩ =
      .reply [] (poppedVersionOf samplePeekState ⟨0, 3⟩)
        (some (poppedVersionOf samplePeekState ⟨0, 3⟩)) false :=
  ⟨by decide,
   c6_amended_peek_popped sampleKnobs samplePeekState ⟨4, ⟨0, 3⟩, false, false⟩
     (by decide) (by decide)⟩

/-! ### C1: the commit admission check -/

/-- C1 counterexample: the admission check at TLogServer.actor.cpp:1923
compares the generation's version against `req.prevVersion`, not
against `req.version`.  Here the state has version 5 and the request
has `prevVersion = 5`, `version = 6`: the message-processing work IS
performed (the version advances to `req.version` and a queue entry is
pushed) even though `req.version ≠ generation.version` at the check —
refuting the claimed "if and only if `req.version` equals the
generation's current version". -/
theorem c1_counterexample :
    ((tLogCommit sampleKnobs (initState 5 (-1) 0 [] 0 false)
        ⟨5, 6, 0, 0, [⟨2, [⟨0, 0⟩]⟩]⟩).version = 6 ∧
     (tLogCommit sampleKnobs (initState 5 (-1) 0 [] 0 false)
        ⟨5, 6, 0, 0, [⟨2, [⟨0, 0⟩]⟩]⟩).diskQueue.length = 1) ∧
    (6 : Nat) ≠ (initState 5 (-1) 0 [] 0 false).version := by decide

/-- C1 amended: for a non-stopped generation and a well-formed request
(`prevVersion < version`), the message-processing work of `tLogCommit`
— appending via `commitMessages`, pushing a framed queue entry to the
disk queue, and advancing the generation's version to `req.version` —
is performed if and only if `req.prevVersion` equals the generation's
current version at the admission check; any other request is treated
as a duplicate and skips that work. -/
theorem c1_amended_commit_admission (k : Knobs) (s : TLogState) (req : CommitReq)
    (hstop : s.stopped = false) (hwf : req.prevVersion < req.version) :
    ((tLogCommit k s req).version = req.version ∧
     (tLogCommit k s req).diskQueue.length = s.diskQueue.length + 1) ↔
    s.version = req.prevVersion := by
  unfold tLogCommit
  by_cases hadm : s.version = req.prevVersion
  · simp only [hstop, Bool.false_eq_true, if_false, hadm, if_pos rfl, if_true]
    simp [commitMessages_diskQueue]
  · simp only [hstop, Bool.false_eq_true, if_false, hadm, if_neg hadm]
    simp only [iff_false, not_and]
    intro hv
    omega

theorem c1_amended_commit_admission_witness :
    ((initState 5 (-1) 0 [] 0 false).stopped = false ∧ (5 : Nat) < 6) ∧
    (((tLogCommit sampleKnobs (initState 5 (-1) 0 [] 0 false)
          ⟨5, 6, 0, 0, [⟨2, [⟨0, 0⟩]⟩]⟩).version = 6 ∧
       (tLogCommit sampleKnobs (initState 5 (-1) 0 [] 0 false)
          ⟨5, 6, 0, 0, [⟨2, [⟨0, 0⟩]⟩]⟩).diskQueue.length =
         (initState 5 (-1) 0 [] 0 false).diskQueue.length + 1) ↔
      (initState 5 (-1) 0 [] 0 false).version = 5) :=
  ⟨⟨by decide, by decide⟩,
   c1_amended_commit_admission sampleKnobs (initState 5 (-1) 0 [] 0 false)
     ⟨5, 6, 0, 0, [⟨2, [⟨0, 0⟩]⟩]⟩ (by decide) (by decide)⟩

/-! ### C7: idempotent commit -/

/-- A commit request whose `prevVersion` does not match the current
version (in particular any replay, whose `version ≤` current implies
`prevVersion <` current) changes nothing but
`minKnownCommittedVersion`. -/
theorem tLogCommit_skip (k : Knobs) (s : TLogState) (req : CommitReq)
    (h : s.version ≠ req.prevVersion) :
    (tLogCommit k s req).version = s.version ∧
    (tLogCommit k s req).diskQueue = s.diskQueue ∧
    (tLogCommit k s req).tagData = s.tagData ∧
    (tLogCommit k s req).messageBlocks = s.messageBlocks ∧
    (tLogCommit k s req).logBytesInput = s.logBytesInput ∧
    (tLogCommit k s req).sharedBytesInput = s.sharedBytesInput ∧
    (tLogCommit k s req).durableKnownCommittedVersion =
      s.durableKnownCommittedVersion := by
  unfold tLogCommit
  by_cases hstop : s.stopped <;> simp [hstop, h]

theorem tLogCommit_version_processed (k : Knobs) (s : TLogState) (req : CommitReq)
    (hstop : s.stopped = false) (hadm : s.version = req.prevVersion) :
    (tLogCommit k s req).version = req.version := by
  unfold tLogCommit
  simp [hstop, hadm]

/-- C7: replaying a commit request against the state reached after the
original commit was processed and its queue commit completed performs
no message-processing work — the disk queue, tag-indexed memory log,
message blocks, byte-input counters and version are unchanged — and
the replay of the original request is answered with the same
`durable_known_committed_version` the original reply carried. -/
theorem c7_idempotent_commit (k : Knobs) (s : TLogState) (req : CommitReq)
    (hstop : s.stopped = false) (hadm : s.version = req.prevVersion)
    (hwf : req.prevVersion < req.version) :
    (∀ req2 : CommitReq, req2.prevVersion < req2.version →
      req2.version ≤ (doQueueCommit (tLogCommit k s req)).version →
      ((tLogCommit k (doQueueCommit (tLogCommit k s req)) req2).version =
          (doQueueCommit (tLogCommit k s req)).version ∧
       (tLogCommit k (doQueueCommit (tLogCommit k s req)) req2).diskQueue =
          (doQueueCommit (tLogCommit k s req)).diskQueue ∧
       (tLogCommit k (doQueueCommit (tLogCommit k s req)) req2).tagData =
          (doQueueCommit (tLogCommit k s req)).tagData ∧
       (tLogCommit k (doQueueCommit (tLogCommit k s req)) req2).messageBlocks =
          (doQueueCommit (tLogCommit k s req)).messageBlocks ∧
       (tLogCommit k (doQueueCommit (tLogCommit k s req)) req2).logBytesInput =
          (doQueueCommit (tLogCommit k s req)).logBytesInput ∧
       (tLogCommit k (doQueueCommit (tLogCommit k s req)) req2).sharedBytesInput =
          (doQueueCommit (tLogCommit k s req)).sharedBytesInput)) ∧
    commitReplyValue (tLogCommit k (doQueueCommit (tLogCommit k s req)) req) =
      commitReplyValue (doQueueCommit (tLogCommit k s req)) := by
  have hv2 : (doQueueCommit (tLogCommit k s req)).version = req.version := by
    unfold doQueueCommit
    simp [tLogCommit_version_processed k s req hstop hadm]
  constructor
  · intro req2 h1 h2
    rw [hv2] at h2
    have hne : (doQueueCommit (tLogCommit k s req)).version ≠ req2.prevVersion := by
      rw [hv2]; omega
    have hs := tLogCommit_skip k (doQueueCommit (tLogCommit k s req)) req2 hne
    exact ⟨hs.1, hs.2.1, hs.2.2.1, hs.2.2.2.1, hs.2.2.2.2.1, hs.2.2.2.2.2.1⟩
  · have hne : (doQueueCommit (tLogCommit k s req)).version ≠ req.prevVersion := by
      rw [hv2]; omega
    have hs := tLogCommit_skip k (doQueueCommit (tLogCommit k s req)) req hne
    unfold commitReplyValue
    exact hs.2.2.2.2.2.2

theorem c7_idempotent_commit_witness :
    ((initState 5 (-1) 0 [] 0 false).stopped = false ∧
      (initState 5 (-1) 0 [] 0 false).version = 5 ∧ (5 : Nat) < 6) ∧
    commitReplyValue
        (tLogCommit sampleKnobs
          (doQueueCommit (tLogCommit sampleKnobs (initState 5 (-1) 0 [] 0 false)
            ⟨5, 6, 7, 0, [⟨2, [⟨0, 0⟩]⟩]⟩))
          ⟨5, 6, 7, 0, [⟨2, [⟨0, 0⟩]⟩]⟩) =
      commitReplyValue
        (doQueueCommit (tLogCommit sampleKnobs (initState 5 (-1) 0 [] 0 false)
          ⟨5, 6, 7, 0, [⟨2, [⟨0, 0⟩]⟩]⟩)) :=
  ⟨⟨by decide, by decide, by decide⟩,
   (c7_idempotent_commit sampleKnobs (initState 5 (-1) 0 [] 0 false)
     ⟨5, 6, 7, 0, [⟨2, [⟨0, 0⟩]⟩]⟩ (by decide) (by decide) (by decide)).2⟩

/-! ### C10: pops in ignore-pops mode -/

/-- C10: while `ignorePopRequest` is set, a `txsTag` pop is exempt from
deferral — it advances `popped(txsTag)` and erases its in-memory
messages below the popped version immediately, leaving `toBePopped`
untouched — whereas a pop for any other tag leaves the tag data
untouched and is recorded in `toBePopped` under the maximum of the
requested and any previously deferred version; `tLogPop` only replays
deferred pops once the deadline has passed (until then it just runs
`tLogPopCore`, which defers). -/
theorem c10_ignore_pops_txs_exempt (k : Knobs) (isPseudo : Int → Bool)
    (popPseudo : Int → Nat → Nat) (s : TLogState) (tag : TagM) (toV now : Nat)
    (hig : s.ignorePopRequest = true) (hlsv : s.logSystemValid = false) :
    (∀ td : TagData, lookupTag s.tagData txsTag = some td → td.popped < toV →
      s.persistentDataDurableVersion < toV →
      (tLogPopCore k isPseudo popPseudo s txsTag toV).toBePopped = s.toBePopped ∧
      ∃ td2, lookupTag (tLogPopCore k isPseudo popPseudo s txsTag toV).tagData txsTag =
          some td2 ∧
        td2.popped = toV ∧
        td2.versionMessages = eraseMessages toV td.versionMessages) ∧
    (tag ≠ txsTag →
      (tLogPopCore k isPseudo popPseudo s tag toV).tagData = s.tagData ∧
      lookupPop (tLogPopCore k isPseudo popPseudo s tag toV).toBePopped tag =
        some (match lookupPop s.toBePopped tag with
              | none => toV
              | some w => max w toV)) ∧
    (now ≤ s.ignorePopDeadline →
      tLogPop k isPseudo popPseudo s tag toV now =
        tLogPopCore k isPseudo popPseudo s tag toV) := by
  refine ⟨?_, ?_, ?_⟩
  · intro td hlook hpop hpddv
    unfold tLogPopCore
    rw [if_neg (by simp)]
    rw [if_neg (by simp [hlsv])]
    unfold popApply
    rw [hlook]
    dsimp only
    rw [if_pos hpop, if_pos hpddv]
    unfold eraseTagBefore
    rw [lookupTag_setTag_self]
    exact ⟨rfl, _, lookupTag_setTag_self _ _ _, rfl, rfl⟩
  · intro hne
    unfold tLogPopCore
    rw [if_pos ⟨by simp [hig], hne⟩]
    exact ⟨rfl, lookupPop_setPop_self _ _ _⟩
  · intro hnow
    unfold tLogPop
    rw [if_neg (by simp; omega)]

/-- A server in ignore-pops mode holding one in-memory txs message at
version 1. -/
def sampleIgnoreState : TLogState :=
  { initState 0 (-1) 0 [] 0 false with
    ignorePopRequest := true
    ignorePopDeadline := 100
    tagData := [(txsTag, ⟨0, false, false, false, false, [(1, 2)]⟩)] }

theorem c10_ignore_pops_txs_exempt_witness :
    (sampleIgnoreState.ignorePopRequest = true ∧
      sampleIgnoreState.logSystemValid = false ∧
      lookupTag sampleIgnoreState.tagData txsTag =
        some ⟨0, false, false, false, false, [(1, 2)]⟩ ∧
      (0 : Nat) < 3 ∧ sampleIgnoreState.persistentDataDurableVersion < 3) ∧
    (tLogPopCore sampleKnobs (fun _ => false) (fun _ v => v)
        sampleIgnoreState txsTag 3).toBePopped = sampleIgnoreState.toBePopped :=
  ⟨⟨by decide, by decide, by decide, by decide, by decide⟩,
   ((c10_ignore_pops_txs_exempt sampleKnobs (fun _ => false) (fun _ v => v)
       sampleIgnoreState ⟨0, 5⟩ 3 0 (by decide) (by decide)).1
     ⟨0, false, false, false, false, [(1, 2)]⟩ (by decide) (by decide) (by decide)).1⟩

/-! ### The global invariant

`phi` is the number of bytes of in-memory data not yet accounted
durable: the per-entry overhead of every live `versionMessages` entry
plus the weighted size of every live message block.  The byte counters
satisfy `bytesInput - bytesDurable = phi` throughout, which yields
invariant C8; `tagsOK` carries the per-tag facts (deques sorted by
version, every entry at or above the tag's popped version, strictly
above `persistentDataDurableVersion`, and at most the generation's
version) needed for C2. -/

def totalEntries (l : List (TagM × TagData)) : Nat :=
  (l.map (fun p => p.2.versionMessages.length)).sum

def phi (k : Knobs) (s : TLogState) : Int :=
  ((k.entryOverheadBytes * totalEntries s.tagData : Nat) : Int) +
    ((blocksWeight k s.messageBlocks : Nat) : Int)

def tagsOK (pddv v : Nat) (l : List (TagM × TagData)) : Prop :=
  ∀ p ∈ l, List.Pairwise (fun a b : Nat × Nat => a.1 ≤ b.1) p.2.versionMessages ∧
    ∀ q ∈ p.2.versionMessages, p.2.popped ≤ q.1 ∧ pddv < q.1 ∧ q.1 ≤ v

def Inv (k : Knobs) (s : TLogState) : Prop :=
  s.persistentDataDurableVersion ≤ s.persistentDataVersion ∧
  s.persistentDataVersion ≤ s.queueCommittedVersion ∧
  s.queueCommittedVersion ≤ s.version ∧
  tagsOK s.persistentDataDurableVersion s.version s.tagData ∧
  s.logBytesInput - s.logBytesDurable = phi k s ∧
  s.sharedBytesInput - s.sharedBytesDurable = (if s.removed then 0 else phi k s)

/-! ### Accounting lemmas -/

theorem totalEntries_setTag_some (l : List (TagM × TagData)) (t : TagM)
    (d td : TagData) (h : lookupTag l t = some td) :
    totalEntries (setTag l t d) + td.versionMessages.length =
      totalEntries l + d.versionMessages.length := by
  induction l with
  | nil => simp [lookupTag] at h
  | cons p r ih =>
    by_cases hp : p.1 = t
    · simp [lookupTag, hp] at h
      subst h
      simp [setTag, hp, totalEntries]
      omega
    · simp [lookupTag, hp] at h
      have := ih h
      simp [setTag, hp, totalEntries] at this ⊢
      omega

theorem totalEntries_setTag_none (l : List (TagM × TagData)) (t : TagM)
    (d : TagData) (h : lookupTag l t = none) :
    totalEntries (setTag l t d) = totalEntries l + d.versionMessages.length := by
  induction l with
  | nil => simp [setTag, totalEntries]
  | cons p r ih =>
    by_cases hp : p.1 = t
    · simp [lookupTag, hp] at h
    · simp [lookupTag, hp] at h
      have := ih h
      simp [setTag, hp, totalEntries] at this ⊢
      omega

theorem eraseCount_split (b : Nat) (l : List (Nat × Nat)) :
    eraseCount b l + (eraseMessages b l).length = l.length := by
  unfold eraseCount eraseMessages
  rw [← List.length_append, List.takeWhile_append_dropWhile]

theorem blocksWeight_append (k : Knobs) (l1 l2 : List (Nat × Nat)) :
    blocksWeight k (l1 ++ l2) = blocksWeight k l1 + blocksWeight k l2 := by
  simp [blocksWeight]

theorem blocksWeight_split (k : Knobs) (p : Nat × Nat → Bool) (l : List (Nat × Nat)) :
    blocksWeight k (l.takeWhile p) + blocksWeight k (l.dropWhile p) =
      blocksWeight k l := by
  rw [← blocksWeight_append, List.takeWhile_append_dropWhile]

/-! ### Sortedness lemmas -/

theorem mem_of_mem_dropWhile {α : Type} (p : α → Bool) (l : List α) (q : α)
    (h : q ∈ l.dropWhile p) : q ∈ l :=
  (List.dropWhile_sublist p).subset h

theorem pairwise_dropWhile {α : Type} (R : α → α → Prop) (p : α → Bool)
    (l : List α) (h : List.Pairwise R l) : List.Pairwise R (l.dropWhile p) :=
  h.sublist (List.dropWhile_sublist p)

/-- In a version-sorted deque, every entry surviving
`eraseMessagesBefore b` has version at least `b`. -/
theorem mem_eraseMessages_ge (b : Nat) (l : List (Nat × Nat))
    (hs : List.Pairwise (fun a c : Nat × Nat => a.1 ≤ c.1) l)
    (q : Nat × Nat) (hq : q ∈ eraseMessages b l) : b ≤ q.1 := by
  induction l with
  | nil => simp [eraseMessages] at hq
  | cons x r ih =>
    rw [List.pairwise_cons] at hs
    by_cases hx : x.1 < b
    · rw [eraseMessages, List.dropWhile_cons_of_pos (by simpa using hx)] at hq
      exact ih hs.2 hq
    · rw [eraseMessages, List.dropWhile_cons_of_neg (by simpa using hx)] at hq
      rcases List.mem_cons.mp hq with rfl | hq2
      · omega
      · have := hs.1 q hq2
        omega

/-! ### `commitMessages` preserves the invariant -/

theorem mem_setTag {l : List (TagM × TagData)} {t : TagM} {d : TagData}
    {p : TagM × TagData} (h : p ∈ setTag l t d) : p = (t, d) ∨ p ∈ l := by
  induction l with
  | nil => simpa [setTag] using h
  | cons x r ih =>
    by_cases hx : x.1 = t
    · rw [setTag, if_pos hx] at h
      rcases List.mem_cons.mp h with rfl | h2
      · exact Or.inl rfl
      · exact Or.inr (List.mem_cons_of_mem _ h2)
    · rw [setTag, if_neg hx] at h
      rcases List.mem_cons.mp h with rfl | h2
      · exact Or.inr (List.mem_cons_self _ _)
      · rcases ih h2 with h3 | h3
        · exact Or.inl h3
        · exact Or.inr (List.mem_cons_of_mem _ h3)

theorem lookupTag_mem {l : List (TagM × TagData)} {t : TagM} {d : TagData}
    (h : lookupTag l t = some d) : (t, d) ∈ l := by
  induction l with
  | nil => simp [lookupTag] at h
  | cons x r ih =>
    by_cases hx : x.1 = t
    · rw [lookupTag, if_pos hx] at h
      rcases x with ⟨xt, xd⟩
      simp at h hx
      simp [hx, h]
    · rw [lookupTag, if_neg hx] at h
      exact List.mem_cons_of_mem _ (ih h)

theorem tagsOK_setTag {pddv v : Nat} {l : List (TagM × TagData)} (t : TagM)
    (d : TagData) (h : tagsOK pddv v l)
    (hd : List.Pairwise (fun a b : Nat × Nat => a.1 ≤ b.1) d.versionMessages ∧
      ∀ q ∈ d.versionMessages, d.popped ≤ q.1 ∧ pddv < q.1 ∧ q.1 ≤ v) :
    tagsOK pddv v (setTag l t d) := by
  intro p hp
  rcases mem_setTag hp with rfl | hp2
  · exact hd
  · exact h p hp2

theorem processTagKnown_tagsOK (s : TLogState) (version sz : Nat)
    (acc : List (TagM × TagData) × Nat) (tag : TagM) {pddv : Nat}
    (hpd : pddv < version) (h : tagsOK pddv version acc.1) :
    tagsOK pddv version (processTagKnown s version sz acc tag).1 := by
  unfold processTagKnown
  cases hlook : lookupTag acc.1 tag with
  | some td =>
    dsimp only
    by_cases hpop : td.popped ≤ version
    · rw [if_pos hpop]
      refine tagsOK_setTag _ _ h ⟨?_, ?_⟩
      · have hmem := h _ (lookupTag_mem hlook)
        rw [List.pairwise_append]
        refine ⟨hmem.1, List.pairwise_singleton _ _, ?_⟩
        intro a ha b hb
        rcases List.mem_singleton.mp hb with rfl
        exact (hmem.2 a ha).2.2
      · intro q hq
        rcases List.mem_append.mp hq with hq1 | hq2
        · exact (h _ (lookupTag_mem hlook)).2 q hq1
        · rcases List.mem_singleton.mp hq2 with rfl
          exact ⟨hpop, hpd, le_refl _⟩
    · rw [if_neg hpop]
      exact h
  | none =>
    dsimp only
    by_cases hpop : (createTagData s tag 0 true true false).popped ≤ version
    · rw [if_pos hpop]
      have h1 : tagsOK pddv version (setTag acc.1 tag (createTagData s tag 0 true true false)) :=
        tagsOK_setTag _ _ h ⟨by simp [createTagData], by simp [createTagData]⟩
      refine tagsOK_setTag _ _ h1 ⟨?_, ?_⟩
      · simp [createTagData]
      · intro q hq
        rcases List.mem_singleton.mp (by simpa [createTagData] using hq) with rfl
        exact ⟨by simpa [createTagData] using hpop, hpd, le_refl _⟩
    · rw [if_neg hpop]
      exact tagsOK_setTag _ _ h ⟨by simp [createTagData], by simp [createTagData]⟩

theorem processTag_tagsOK (s : TLogState) (version sz : Nat)
    (acc : List (TagM × TagData) × Nat) (tag0 : TagM) {pddv : Nat}
    (hpd : pddv < version) (h : tagsOK pddv version acc.1) :
    tagsOK pddv version (processTag s version sz acc tag0).1 := by
  unfold processTag
  by_cases hadm : tagAdmitted s.locality tag0 = true
  · rw [if_pos hadm]
    by_cases hlr : tag0.locality = tagLocalityLogRouter ∧ s.logRouterTags = 0
    · rw [if_pos hlr]
      exact h
    · rw [if_neg hlr]
      exact processTagKnown_tagsOK s version sz acc _ hpd h
  · rw [if_neg hadm]
    exact h

theorem processTagKnown_entries (s : TLogState) (version sz : Nat)
    (acc : List (TagM × TagData) × Nat) (tag : TagM) :
    totalEntries (processTagKnown s version sz acc tag).1 + acc.2 =
      totalEntries acc.1 + (processTagKnown s version sz acc tag).2 := by
  unfold processTagKnown
  cases hlook : lookupTag acc.1 tag with
  | some td =>
    dsimp only
    by_cases hpop : td.popped ≤ version
    · rw [if_pos hpop]
      have h1 := totalEntries_setTag_some acc.1 tag
        { td with versionMessages := td.versionMessages ++ [(version, sz)] } td hlook
      simp only [List.length_append, List.length_singleton] at h1
      dsimp only
      omega
    · rw [if_neg hpop]
  | none =>
    dsimp only
    by_cases hpop : (createTagData s tag 0 true true false).popped ≤ version
    · rw [if_pos hpop]
      have h1 := totalEntries_setTag_none acc.1 tag
        (createTagData s tag 0 true true false) hlook
      have h2 := totalEntries_setTag_some
        (setTag acc.1 tag (createTagData s tag 0 true true false)) tag
        { createTagData s tag 0 true true false with
            versionMessages :=
              (createTagData s tag 0 true true false).versionMessages ++ [(version, sz)] }
        (createTagData s tag 0 true true false) (lookupTag_setTag_self _ _ _)
      simp only [createTagData, List.length_append, List.length_singleton,
        List.length_nil, List.nil_append] at h1 h2
      dsimp only
      simp only [createTagData, List.nil_append]
      omega
    · rw [if_neg hpop]
      have h1 := totalEntries_setTag_none acc.1 tag
        (createTagData s tag 0 true true false) hlook
      simp only [createTagData, List.length_nil] at h1
      dsimp only
      simp only [createTagData]
      omega

theorem processTag_entries (s : TLogState) (version sz : Nat)
    (acc : List (TagM × TagData) × Nat) (tag0 : TagM) :
    totalEntries (processTag s version sz acc tag0).1 + acc.2 =
      totalEntries acc.1 + (processTag s version sz acc tag0).2 := by
  unfold processTag
  by_cases hadm : tagAdmitted s.locality tag0 = true
  · rw [if_pos hadm]
    by_cases hlr : tag0.locality = tagLocalityLogRouter ∧ s.logRouterTags = 0
    · rw [if_pos hlr]
    · rw [if_neg hlr]
      exact processTagKnown_entries s version sz acc _
  · rw [if_neg hadm]

theorem foldTags_tagsOK (s : TLogState) (version sz : Nat) {pddv : Nat}
    (hpd : pddv < version) (tags : List TagM) (acc : List (TagM × TagData) × Nat)
    (h : tagsOK pddv version acc.1) :
    tagsOK pddv version (tags.foldl (processTag s version sz) acc).1 := by
  induction tags generalizing acc with
  | nil => exact h
  | cons t r ih =>
    exact ih _ (processTag_tagsOK s version sz acc t hpd h)

theorem foldTags_entries (s : TLogState) (version sz : Nat) (tags : List TagM)
    (acc : List (TagM × TagData) × Nat) :
    totalEntries (tags.foldl (processTag s version sz) acc).1 + acc.2 =
      totalEntries acc.1 + (tags.foldl (processTag s version sz) acc).2 := by
  induction tags generalizing acc with
  | nil => rfl
  | cons t r ih =>
    have h1 := processTag_entries s version sz acc t
    have h2 := ih (processTag s version sz acc t)
    simp only [List.foldl_cons]
    omega

/-- The evolution of `(tagData, appends)` through `commitLoop`,
separated from the block bookkeeping. -/
def commitTags (s : TLogState) (version : Nat) :
    List TaggedMsg → List (TagM × TagData) × Nat → List (TagM × TagData) × Nat
  | [], acc => acc
  | m :: r, acc => commitTags s version r (m.tags.foldl (processTag s version m.size) acc)

theorem commitLoop_tags (k : Knobs) (s : TLogState) (version : Nat)
    (msgs : List TaggedMsg) (st : CommitFold) :
    ((commitLoop k s version st msgs).tagData, (commitLoop k s version st msgs).appends) =
      commitTags s version msgs (st.tagData, st.appends) := by
  induction msgs generalizing st with
  | nil => rfl
  | cons m r ih =>
    rw [commitLoop, commitTags]
    by_cases hc : st.capLeft < m.size
    · simp only [if_pos hc]
      rw [ih]
    · simp only [if_neg hc]
      rw [ih]

theorem commitTags_tagsOK (s : TLogState) (version : Nat) {pddv : Nat}
    (hpd : pddv < version) (msgs : List TaggedMsg)
    (acc : List (TagM × TagData) × Nat) (h : tagsOK pddv version acc.1) :
    tagsOK pddv version (commitTags s version msgs acc).1 := by
  induction msgs generalizing acc with
  | nil => exact h
  | cons m r ih =>
    rw [commitTags]
    exact ih _ (foldTags_tagsOK s version m.size hpd m.tags acc h)

theorem commitTags_entries (s : TLogState) (version : Nat) (msgs : List TaggedMsg)
    (acc : List (TagM × TagData) × Nat) :
    totalEntries (commitTags s version msgs acc).1 + acc.2 =
      totalEntries acc.1 + (commitTags s version msgs acc).2 := by
  induction msgs generalizing acc with
  | nil => rfl
  | cons m r ih =>
    rw [commitTags]
    have h1 := foldTags_entries s version m.size m.tags acc
    have h2 := ih (m.tags.foldl (processTag s version m.size) acc)
    omega

theorem tagsOK_mono {pddv v w : Nat} (hvw : v ≤ w) (l : List (TagM × TagData))
    (h : tagsOK pddv v l) : tagsOK pddv w l := by
  intro p hp
  refine ⟨(h p hp).1, fun q hq => ?_⟩
  have := (h p hp).2 q hq
  exact ⟨this.1, this.2.1, le_trans this.2.2 hvw⟩

theorem commitMessages_shape (k : Knobs) (s : TLogState) (v : Nat)
    (msgs : List TaggedMsg) (hm : msgs ≠ []) :
    ∃ (blocks : List (Nat × Nat)) (appends : Nat),
      (commitMessages k s v msgs).tagData = (commitTags s v msgs (s.tagData, 0)).1 ∧
      appends = (commitTags s v msgs (s.tagData, 0)).2 ∧
      (commitMessages k s v msgs).messageBlocks = s.messageBlocks ++ blocks ∧
      (commitMessages k s v msgs).logBytesInput =
        s.logBytesInput +
          (((blocksWeight k blocks : Nat) : Int) + ((k.entryOverheadBytes * appends : Nat) : Int)) ∧
      (commitMessages k s v msgs).sharedBytesInput =
        s.sharedBytesInput +
          (((blocksWeight k blocks : Nat) : Int) + ((k.entryOverheadBytes * appends : Nat) : Int)) := by
  unfold commitMessages
  rw [if_neg hm]
  dsimp only
  refine ⟨_, _, ?_, ?_, rfl, rfl, rfl⟩
  · exact congrArg Prod.fst (commitLoop_tags k s v msgs _)
  · exact congrArg Prod.snd (commitLoop_tags k s v msgs _)

theorem commitMessages_tagsOK (k : Knobs) (s : TLogState) (v : Nat)
    (msgs : List TaggedMsg) {pddv : Nat} (hpd : pddv < v)
    (h : tagsOK pddv v s.tagData) :
    tagsOK pddv v (commitMessages k s v msgs).tagData := by
  by_cases hm : msgs = []
  · simpa [commitMessages, hm] using h
  · rcases commitMessages_shape k s v msgs hm with ⟨blocks, appends, h1, _, _, _, _⟩
    rw [h1]
    exact commitTags_tagsOK s v hpd msgs (s.tagData, 0) h

theorem commitMessages_balance (k : Knobs) (s : TLogState) (v : Nat)
    (msgs : List TaggedMsg) :
    (commitMessages k s v msgs).logBytesInput - s.logBytesInput =
      phi k (commitMessages k s v msgs) - phi k s ∧
    (commitMessages k s v msgs).sharedBytesInput - s.sharedBytesInput =
      (commitMessages k s v msgs).logBytesInput - s.logBytesInput := by
  by_cases hm : msgs = []
  · simp [commitMessages, hm]
  · rcases commitMessages_shape k s v msgs hm with ⟨blocks, appends, h1, h2, h3, h4, h5⟩
    have hent : totalEntries (commitMessages k s v msgs).tagData =
        totalEntries s.tagData + appends := by
      rw [h1, h2]
      have hce := commitTags_entries s v msgs (s.tagData, 0)
      dsimp only at hce
      omega
    constructor
    · unfold phi
      rw [hent, h3, h4, blocksWeight_append]
      push_cast [Nat.mul_add]
      ring
    · rw [h4, h5]
      ring

/-! ### Invariant preservation -/

theorem inv_commit (k : Knobs) (s : TLogState) (req : CommitReq)
    (hwf : req.prevVersion < req.version) (hr : s.removed = false) (h : Inv k s) :
    Inv k (tLogCommit k s req) := by
  obtain ⟨h1, h2, h3, h4, h5, h6⟩ := h
  unfold tLogCommit
  set s0 : TLogState := { s with minKnownCommittedVersion := max s.minKnownCommittedVersion req.minKnownCommittedVersion } with hs0
  have hv0 : s0.version = s.version := by rw [hs0]
  have htd0 : s0.tagData = s.tagData := by rw [hs0]
  have hpd0 : s0.persistentDataDurableVersion = s.persistentDataDurableVersion := by rw [hs0]
  have hpv0 : s0.persistentDataVersion = s.persistentDataVersion := by rw [hs0]
  have hqc0 : s0.queueCommittedVersion = s.queueCommittedVersion := by rw [hs0]
  have hbi0 : s0.logBytesInput = s.logBytesInput := by rw [hs0]
  have hbd0 : s0.logBytesDurable = s.logBytesDurable := by rw [hs0]
  have hsbi0 : s0.sharedBytesInput = s.sharedBytesInput := by rw [hs0]
  have hsbd0 : s0.sharedBytesDurable = s.sharedBytesDurable := by rw [hs0]
  have hrm0 : s0.removed = s.removed := by rw [hs0]
  have hmb0 : s0.messageBlocks = s.messageBlocks := by rw [hs0]
  have hphi0 : phi k s0 = phi k s := by unfold phi; rw [htd0, hmb0]
  have hinv0 : Inv k s0 := by
    refine ⟨?_, ?_, ?_, ?_, ?_, ?_⟩
    · rw [hpd0, hpv0]; exact h1
    · rw [hpv0, hqc0]; exact h2
    · rw [hqc0, hv0]; exact h3
    · rw [hpd0, hv0, htd0]; exact h4
    · rw [hbi0, hbd0, hphi0]; exact h5
    · rw [hsbi0, hsbd0, hrm0, hphi0]; exact h6
  by_cases hstop : s0.stopped = true
  · rw [if_pos hstop]
    exact hinv0
  · rw [if_neg hstop]
    by_cases hadm : s0.version = req.prevVersion
    · rw [if_pos hadm]
      have hver : s.version < req.version := by
        rw [hv0] at hadm
        omega
      have hpdlt : s0.persistentDataDurableVersion < req.version := by
        rw [hpd0]
        omega
      have hbal := commitMessages_balance k s0 req.version req.messages
      have h4b : tagsOK s0.persistentDataDurableVersion req.version s0.tagData := by
        rw [hpd0, htd0]
        exact tagsOK_mono (le_of_lt hver) _ h4
      have hok := commitMessages_tagsOK k s0 req.version req.messages hpdlt h4b
      refine ⟨?_, ?_, ?_, ?_, ?_, ?_⟩
      · dsimp only
        rw [commitMessages_pddv, commitMessages_persistentDataVersion, hpd0, hpv0]
        exact h1
      · dsimp only
        rw [commitMessages_persistentDataVersion, commitMessages_queueCommittedVersion, hpv0, hqc0]
        exact h2
      · dsimp only
        rw [commitMessages_queueCommittedVersion, hqc0]
        omega
      · dsimp only
        rw [commitMessages_pddv]
        exact hok
      · have e2 := commitMessages_logBytesDurable k s0 req.version req.messages
        have e1 := hbal.1
        dsimp only
        rw [e2, hbd0]
        rw [hbi0] at e1
        unfold phi at e1 ⊢
        dsimp only
        rw [htd0, hmb0] at e1
        unfold phi at h5
        omega
      · have ermv := commitMessages_removed k s0 req.version req.messages
        have esd := commitMessages_sharedBytesDurable k s0 req.version req.messages
        have e1 := hbal.1
        have e2 := hbal.2
        dsimp only
        rw [ermv, hrm0, esd, hsbd0]
        rw [hsbi0] at e2
        rw [hbi0] at e1
        rw [hr] at h6 ⊢
        simp only [Bool.false_eq_true, if_false] at h6 ⊢
        unfold phi at e1 h5 h6 ⊢
        dsimp only
        rw [htd0, hmb0] at e1
        omega
    · rw [if_neg hadm]
      exact hinv0

theorem updatePersistentPopped_popped (pdv : Nat) (td : TagData) :
    (updatePersistentPopped pdv td).popped = td.popped := by
  unfold updatePersistentPopped
  split_ifs <;> rfl

theorem updatePersistentPopped_vm (pdv : Nat) (td : TagData) :
    (updatePersistentPopped pdv td).versionMessages = td.versionMessages := by
  unfold updatePersistentPopped
  split_ifs <;> rfl

theorem setTag_setTag (l : List (TagM × TagData)) (t : TagM) (d d2 : TagData) :
    setTag (setTag l t d) t d2 = setTag l t d2 := by
  induction l with
  | nil => simp [setTag]
  | cons p r ih =>
    by_cases hp : p.1 = t
    · simp [setTag, hp]
    · simp [setTag, hp, ih]

theorem spillWriteTags_entries (pdv next : Nat) (l : List (TagM × TagData)) :
    totalEntries (spillWriteTags pdv next l).1 + (spillWriteTags pdv next l).2 =
      totalEntries l := by
  induction l with
  | nil => rfl
  | cons p r ih =>
    rw [spillWriteTags]
    dsimp only
    have hsplit := eraseCount_split p.2.popped p.2.versionMessages
    have hvm : ∀ td : TagData,
        ((if td.versionMessages.any (fun q => q.1 ≤ next) then
          { td with nothingPersistent := false } else td) : TagData).versionMessages =
          td.versionMessages := by
      intro td
      split_ifs <;> rfl
    simp only [totalEntries, List.map_cons, List.sum_cons] at ih ⊢
    rw [hvm, updatePersistentPopped_vm]
    dsimp only
    omega

theorem spillWriteTags_tagsOK {pddv v : Nat} (pdv next : Nat)
    (l : List (TagM × TagData)) (h : tagsOK pddv v l) :
    tagsOK pddv v (spillWriteTags pdv next l).1 := by
  induction l with
  | nil => intro p hp; simp [spillWriteTags] at hp
  | cons p r ih =>
    intro q hq
    rw [spillWriteTags] at hq
    dsimp only at hq
    have hfront := h p (List.mem_cons_self _ _)
    have htail : tagsOK pddv v r := fun x hx => h x (List.mem_cons_of_mem _ hx)
    rcases List.mem_cons.mp hq with rfl | hq2
    · constructor
      · have hpw : List.Pairwise (fun a b : Nat × Nat => a.1 ≤ b.1)
            (eraseMessages p.2.popped p.2.versionMessages) :=
          pairwise_dropWhile _ _ _ hfront.1
        split_ifs <;> simpa [updatePersistentPopped_vm] using hpw
      · intro x hx
        have hx2 : x ∈ eraseMessages p.2.popped p.2.versionMessages := by
          revert hx
          split_ifs <;> simpa [updatePersistentPopped_vm] using id
        have hx3 : x ∈ p.2.versionMessages := mem_of_mem_dropWhile _ _ _ hx2
        have hb := hfront.2 x hx3
        have hpp : ∀ td : TagData,
            ((if td.versionMessages.any (fun q => q.1 ≤ next) then
              { td with nothingPersistent := false } else td) : TagData).popped =
              td.popped := by
          intro td
          split_ifs <;> rfl
        rw [hpp, updatePersistentPopped_popped]
        exact hb
    · exact ih htail q hq2

theorem spillDurableTags_entries (bound : Nat) (l : List (TagM × TagData)) :
    totalEntries (spillDurableTags bound l).1 + (spillDurableTags bound l).2 =
      totalEntries l := by
  induction l with
  | nil => rfl
  | cons p r ih =>
    rw [spillDurableTags]
    dsimp only
    have hsplit := eraseCount_split bound p.2.versionMessages
    simp only [totalEntries, List.map_cons, List.sum_cons] at ih ⊢
    omega

/-- After erasing everything below `pdv + 1`, the per-tag facts hold
with the durable floor raised to `pdv`. -/
theorem spillDurableTags_tagsOK {pddv v : Nat} (pdv : Nat)
    (l : List (TagM × TagData)) (h : tagsOK pddv v l) :
    tagsOK pdv v (spillDurableTags (pdv + 1) l).1 := by
  induction l with
  | nil => intro p hp; simp [spillDurableTags] at hp
  | cons p r ih =>
    intro q hq
    rw [spillDurableTags] at hq
    dsimp only at hq
    have hfront := h p (List.mem_cons_self _ _)
    have htail : tagsOK pddv v r := fun x hx => h x (List.mem_cons_of_mem _ hx)
    rcases List.mem_cons.mp hq with rfl | hq2
    · refine ⟨pairwise_dropWhile _ _ _ hfront.1, ?_⟩
      intro x hx
      have hx3 : x ∈ p.2.versionMessages := mem_of_mem_dropWhile _ _ _ hx
      have hge := mem_eraseMessages_ge (pdv + 1) p.2.versionMessages hfront.1 x hx
      have hb := hfront.2 x hx3
      exact ⟨hb.1, by omega, hb.2.2⟩
    · exact ih htail q hq2

theorem inv_queueCommit (k : Knobs) (s : TLogState) (h : Inv k s) :
    Inv k (doQueueCommit s) := by
  obtain ⟨h1, h2, h3, h4, h5, h6⟩ := h
  unfold doQueueCommit
  exact ⟨h1, le_trans h2 h3, le_refl _, h4, h5, h6⟩

theorem inv_stop (k : Knobs) (s : TLogState) (h : Inv k s) : Inv k (stopLog s) := by
  obtain ⟨h1, h2, h3, h4, h5, h6⟩ := h
  exact ⟨h1, h2, h3, h4, h5, h6⟩

theorem inv_remove (k : Knobs) (s : TLogState) (hr : s.removed = false)
    (h : Inv k s) : Inv k (removeLog s) := by
  obtain ⟨h1, h2, h3, h4, h5, h6⟩ := h
  unfold removeLog
  refine ⟨h1, h2, h3, h4, h5, ?_⟩
  rw [hr] at h6
  simp only [Bool.false_eq_true, if_false] at h6
  dsimp only
  rw [if_pos rfl]
  omega

theorem inv_spillWrite (k : Knobs) (s : TLogState) (next : Nat)
    (hr : s.removed = false) (hn1 : s.persistentDataVersion < next)
    (hn2 : next ≤ s.queueCommittedVersion)
    (hn3 : s.persistentDataVersion = s.persistentDataDurableVersion)
    (h : Inv k s) : Inv k (spillWrite k s next) := by
  obtain ⟨h1, h2, h3, h4, h5, h6⟩ := h
  unfold spillWrite
  have he := spillWriteTags_entries s.persistentDataVersion next s.tagData
  have hmul : k.entryOverheadBytes * totalEntries s.tagData =
      k.entryOverheadBytes *
          totalEntries (spillWriteTags s.persistentDataVersion next s.tagData).1 +
        k.entryOverheadBytes *
          (spillWriteTags s.persistentDataVersion next s.tagData).2 := by
    rw [← Nat.mul_add, he]
  refine ⟨?_, ?_, ?_, ?_, ?_, ?_⟩
  · dsimp only
    omega
  · exact hn2
  · exact h3
  · exact spillWriteTags_tagsOK _ _ _ h4
  · unfold phi at h5 ⊢
    dsimp only
    zify at hmul
    push_cast at h5 ⊢
    linarith
  · rw [hr] at h6
    simp only [Bool.false_eq_true, if_false] at h6
    dsimp only
    rw [hr]
    simp only [Bool.false_eq_true, if_false]
    unfold phi at h6 ⊢
    dsimp only
    zify at hmul
    push_cast at h6 ⊢
    linarith

theorem inv_spillDurable (k : Knobs) (s : TLogState) (hr : s.removed = false)
    (h : Inv k s) : Inv k (spillDurable k s) := by
  obtain ⟨h1, h2, h3, h4, h5, h6⟩ := h
  unfold spillDurable
  have he := spillDurableTags_entries (s.persistentDataVersion + 1) s.tagData
  have hmul : k.entryOverheadBytes * totalEntries s.tagData =
      k.entryOverheadBytes *
          totalEntries (spillDurableTags (s.persistentDataVersion + 1) s.tagData).1 +
        k.entryOverheadBytes *
          (spillDurableTags (s.persistentDataVersion + 1) s.tagData).2 := by
    rw [← Nat.mul_add, he]
  have hbw := blocksWeight_split k (fun b => b.1 ≤ s.persistentDataVersion) s.messageBlocks
  refine ⟨?_, ?_, ?_, ?_, ?_, ?_⟩
  · exact le_refl _
  · exact h2
  · exact h3
  · exact spillDurableTags_tagsOK _ _ h4
  · unfold phi at h5 ⊢
    dsimp only
    omega
  · rw [hr] at h6
    simp only [Bool.false_eq_true, if_false] at h6
    dsimp only
    rw [hr]
    simp only [Bool.false_eq_true, if_false]
    unfold phi at h6 ⊢
    dsimp only
    omega

theorem inv_popApply (k : Knobs) (s : TLogState) (tag : TagM) (upTo : Nat)
    (hr : s.removed = false) (h : Inv k s) : Inv k (popApply k s tag upTo) := by
  obtain ⟨h1, h2, h3, h4, h5, h6⟩ := h
  unfold popApply
  cases hlook : lookupTag s.tagData tag with
  | none =>
    dsimp only
    have hte := totalEntries_setTag_none s.tagData tag
      (createTagData s tag upTo true true false) hlook
    refine ⟨h1, h2, h3, ?_, ?_, ?_⟩
    · exact tagsOK_setTag _ _ h4 ⟨by simp [createTagData], by simp [createTagData]⟩
    · unfold phi at h5 ⊢
      dsimp only
      rw [hte]
      simp only [createTagData, List.length_nil, Nat.add_zero]
      exact h5
    · rw [hr] at h6 ⊢
      simp only [Bool.false_eq_true, if_false] at h6 ⊢
      unfold phi at h6 ⊢
      dsimp only
      rw [hte]
      simp only [createTagData, List.length_nil, Nat.add_zero]
      exact h6
  | some td =>
    dsimp only
    by_cases hpop : td.popped < upTo
    · rw [if_pos hpop]
      have hmem := h4 _ (lookupTag_mem hlook)
      by_cases hpd : s.persistentDataDurableVersion < upTo
      · rw [if_pos hpd]
        unfold eraseTagBefore
        rw [lookupTag_setTag_self]
        dsimp only
        rw [setTag_setTag]
        have hte := totalEntries_setTag_some s.tagData tag
          { td with
              popped := upTo
              poppedRecently := true
              requiresPoppedLocationUpdate := true
              unpoppedRecovered :=
                if td.unpoppedRecovered = true ∧ s.recoveredAt < upTo then false
                else td.unpoppedRecovered
              versionMessages := eraseMessages upTo td.versionMessages } td hlook
        have hcnt := eraseCount_split upTo td.versionMessages
        refine ⟨h1, h2, h3, ?_, ?_, ?_⟩
        · refine tagsOK_setTag _ _ h4 ⟨?_, ?_⟩
          · exact pairwise_dropWhile _ _ _ hmem.1
          · intro q hq
            have hq2 : q ∈ td.versionMessages := mem_of_mem_dropWhile _ _ _ hq
            have hge := mem_eraseMessages_ge upTo td.versionMessages hmem.1 q hq
            have hb := hmem.2 q hq2
            exact ⟨hge, hb.2.1, hb.2.2⟩
        · unfold phi at h5 ⊢
          dsimp only at hte ⊢
          have hco : k.entryOverheadBytes * td.versionMessages.length =
              k.entryOverheadBytes * (eraseMessages upTo td.versionMessages).length +
                k.entryOverheadBytes * eraseCount upTo td.versionMessages := by
            rw [← Nat.mul_add]
            congr 1
            omega
          have hteq : k.entryOverheadBytes * totalEntries
                (setTag s.tagData tag
                  { td with
                      popped := upTo
                      poppedRecently := true
                      requiresPoppedLocationUpdate := true
                      unpoppedRecovered :=
                        if td.unpoppedRecovered = true ∧ s.recoveredAt < upTo then false
                        else td.unpoppedRecovered
                      versionMessages := eraseMessages upTo td.versionMessages }) +
                k.entryOverheadBytes * eraseCount upTo td.versionMessages =
              k.entryOverheadBytes * totalEntries s.tagData := by
            rw [← Nat.mul_add]
            congr 1
            omega
          omega
        · rw [hr] at h6 ⊢
          simp only [Bool.false_eq_true, if_false] at h6 ⊢
          unfold phi at h6 ⊢
          dsimp only at hte ⊢
          have hco : k.entryOverheadBytes * td.versionMessages.length =
              k.entryOverheadBytes * (eraseMessages upTo td.versionMessages).length +
                k.entryOverheadBytes * eraseCount upTo td.versionMessages := by
            rw [← Nat.mul_add]
            congr 1
            omega
          have hteq : k.entryOverheadBytes * totalEntries
                (setTag s.tagData tag
                  { td with
                      popped := upTo
                      poppedRecently := true
                      requiresPoppedLocationUpdate := true
                      unpoppedRecovered :=
                        if td.unpoppedRecovered = true ∧ s.recoveredAt < upTo then false
                        else td.unpoppedRecovered
                      versionMessages := eraseMessages upTo td.versionMessages }) +
                k.entryOverheadBytes * eraseCount upTo td.versionMessages =
              k.entryOverheadBytes * totalEntries s.tagData := by
            rw [← Nat.mul_add]
            congr 1
            omega
          omega
      · rw [if_neg hpd]
        have hte := totalEntries_setTag_some s.tagData tag
          { td with
              popped := upTo
              poppedRecently := true
              requiresPoppedLocationUpdate := true
              unpoppedRecovered :=
                if td.unpoppedRecovered = true ∧ s.recoveredAt < upTo then false
                else td.unpoppedRecovered } td hlook
        refine ⟨h1, h2, h3, ?_, ?_, ?_⟩
        · refine tagsOK_setTag _ _ h4 ⟨hmem.1, ?_⟩
          intro q hq
          have hb := hmem.2 q hq
          refine ⟨?_, hb.2.1, hb.2.2⟩
          dsimp only
          omega
        · unfold phi at h5 ⊢
          dsimp only at hte ⊢
          have hteq : totalEntries (setTag s.tagData tag
              { td with
                  popped := upTo
                  poppedRecently := true
                  requiresPoppedLocationUpdate := true
                  unpoppedRecovered :=
                    if td.unpoppedRecovered = true ∧ s.recoveredAt < upTo then false
                    else td.unpoppedRecovered }) = totalEntries s.tagData := by
            omega
          rw [hteq]
          exact h5
        · rw [hr] at h6 ⊢
          simp only [Bool.false_eq_true, if_false] at h6 ⊢
          unfold phi at h6 ⊢
          dsimp only at hte ⊢
          have hteq : totalEntries (setTag s.tagData tag
              { td with
                  popped := upTo
                  poppedRecently := true
                  requiresPoppedLocationUpdate := true
                  unpoppedRecovered :=
                    if td.unpoppedRecovered = true ∧ s.recoveredAt < upTo then false
                    else td.unpoppedRecovered }) = totalEntries s.tagData := by
            omega
          rw [hteq]
          exact h6
    · rw [if_neg hpop]
      exact ⟨h1, h2, h3, h4, h5, h6⟩

theorem inv_popCore (k : Knobs) (isPseudo : Int → Bool) (popPseudo : Int → Nat → Nat)
    (s : TLogState) (tg : TagM) (toV : Nat) (hr : s.removed = false)
    (h : Inv k s) : Inv k (tLogPopCore k isPseudo popPseudo s tg toV) := by
  obtain ⟨h1, h2, h3, h4, h5, h6⟩ := h
  unfold tLogPopCore
  by_cases hig : s.ignorePopRequest = true ∧ tg ≠ txsTag
  · rw [if_pos hig]
    exact ⟨h1, h2, h3, h4, h5, h6⟩
  · rw [if_neg hig]
    by_cases hps : s.logSystemValid = true ∧ isPseudo tg.locality = true
    · rw [if_pos hps]
      exact inv_popApply k s _ _ hr ⟨h1, h2, h3, h4, h5, h6⟩
    · rw [if_neg hps]
      exact inv_popApply k s _ _ hr ⟨h1, h2, h3, h4, h5, h6⟩

theorem eraseTagBefore_removed (k : Knobs) (s : TLogState) (tag : TagM)
    (before : Nat) : (eraseTagBefore k s tag before).removed = s.removed := by
  unfold eraseTagBefore
  cases lookupTag s.tagData tag <;> rfl

theorem popApply_removed (k : Knobs) (s : TLogState) (tag : TagM) (upTo : Nat) :
    (popApply k s tag upTo).removed = s.removed := by
  unfold popApply
  cases lookupTag s.tagData tag with
  | none => rfl
  | some td =>
    dsimp only
    split_ifs <;> first | rfl | exact eraseTagBefore_removed ..

theorem popCore_removed (k : Knobs) (isPseudo : Int → Bool)
    (popPseudo : Int → Nat → Nat) (s : TLogState) (tg : TagM) (toV : Nat) :
    (tLogPopCore k isPseudo popPseudo s tg toV).removed = s.removed := by
  unfold tLogPopCore
  split_ifs <;> first | rfl | exact popApply_removed ..

/-- `tLogPop` preserves the invariant: both the deferred-pop replay and
the direct path go through `tLogPopCore`. -/
theorem inv_pop (k : Knobs) (isPseudo : Int → Bool) (popPseudo : Int → Nat → Nat)
    (s : TLogState) (tg : TagM) (toV now : Nat) (hr : s.removed = false)
    (h : Inv k s) : Inv k (tLogPop k isPseudo popPseudo s tg toV now) := by
  unfold tLogPop
  by_cases hig : s.ignorePopRequest = true ∧ s.ignorePopDeadline < now
  · rw [if_pos hig]
    dsimp only
    have hfold : ∀ (l : List (TagM × Nat)) (t : TLogState), t.removed = false →
        Inv k t →
        (l.foldl (fun acc p => tLogPopCore k isPseudo popPseudo acc p.1 p.2)
            t).removed = false ∧
        Inv k (l.foldl (fun acc p => tLogPopCore k isPseudo popPseudo acc p.1 p.2)
            t) := by
      intro l
      induction l with
      | nil => intro t htr hti; exact ⟨htr, hti⟩
      | cons p r ih =>
        intro t htr hti
        have hrm := popCore_removed k isPseudo popPseudo t p.1 p.2
        rw [htr] at hrm
        exact ih _ hrm (inv_popCore k isPseudo popPseudo t p.1 p.2 htr hti)
    obtain ⟨h1, h2, h3, h4, h5, h6⟩ := h
    have hs1 : Inv k { s with ignorePopRequest := false, ignorePopDeadline := 0 } := ⟨h1, h2, h3, h4, h5, h6⟩
    have hs1r : ({ s with ignorePopRequest := false, ignorePopDeadline := 0 } : TLogState).removed = false := hr
    obtain ⟨h2r, h2i⟩ := hfold s.toBePopped _ hs1r hs1
    obtain ⟨g1, g2, g3, g4, g5, g6⟩ := h2i
    exact inv_popCore k isPseudo popPseudo _ tg toV h2r ⟨g1, g2, g3, g4, g5, g6⟩
  · rw [if_neg hig]
    exact inv_popCore k isPseudo popPseudo s tg toV hr h

/-- Every step of the TLog transition relation preserves the invariant. -/
theorem inv_step (k : Knobs) (isPseudo : Int → Bool) (popPseudo : Int → Nat → Nat)
    (s s2 : TLogState) (hstep : Step k isPseudo popPseudo s s2) (h : Inv k s) :
    Inv k s2 := by
  cases hstep with
  | commit req hr hwf => exact inv_commit k s req hwf hr h
  | queueCommit hr hq => exact inv_queueCommit k s h
  | spillW next hr h1 h2 h3 => exact inv_spillWrite k s next hr h1 h2 h3 h
  | spillD hr h1 => exact inv_spillDurable k s hr h
  | pop tag toV now hr => exact inv_pop k isPseudo popPseudo s tag toV now hr h
  | stop hr => exact inv_stop k s h
  | remove hr => exact inv_remove k s hr h

/-- The invariant holds at every initial state. -/
theorem inv_init (k : Knobs) (v0 : Nat) (locality : Int) (lrTags : Nat)
    (allTags : List TagM) (recoveredAt : Nat) (logSystemValid : Bool) :
    Inv k (initState v0 locality lrTags allTags recoveredAt logSystemValid) := by
  refine ⟨le_refl _, le_refl _, le_refl _, ?_, ?_, ?_⟩
  · intro p hp
    simp [initState] at hp
  · simp [initState, phi, totalEntries, blocksWeight]
  · simp [initState, phi, totalEntries, blocksWeight]

/-- The invariant holds at every reachable state. -/
theorem inv_reachable (k : Knobs) (isPseudo : Int → Bool)
    (popPseudo : Int → Nat → Nat) (s0 s : TLogState) (h0 : Inv k s0)
    (h : Reachable k isPseudo popPseudo s0 s) : Inv k s := by
  induction h with
  | refl => exact h0
  | tail hab hbc ih => exact inv_step k isPseudo popPseudo _ _ hbc ih

/-! ### Popped-version tracking (for the pop/commit interplay) -/

/-- The popped version the server associates with tag `t`: the tag's
`popped` field when the tag exists, `0` (nothing popped) otherwise. -/
def poppedL (l : List (TagM × TagData)) (t : TagM) : Nat :=
  ((lookupTag l t).map TagData.popped).getD 0

def poppedOf (s : TLogState) (t : TagM) : Nat := poppedL s.tagData t

theorem poppedL_cons (t0 : TagM) (d : TagData) (r : List (TagM × TagData))
    (t : TagM) : poppedL ((t0, d) :: r) t = if t0 = t then d.popped else poppedL r t := by
  unfold poppedL
  rw [lookupTag]
  split_ifs <;> rfl

theorem poppedL_setTag_self (l : List (TagM × TagData)) (t : TagM) (d : TagData) :
    poppedL (setTag l t d) t = d.popped := by
  unfold poppedL
  rw [lookupTag_setTag_self]
  rfl

theorem poppedL_setTag_ne {l : List (TagM × TagData)} {t u : TagM} {d : TagData}
    (h : u ≠ t) : poppedL (setTag l t d) u = poppedL l u := by
  unfold poppedL
  rw [lookupTag_setTag_ne l t u d h]

theorem processTagKnown_poppedL (s : TLogState) (version sz : Nat)
    (acc : List (TagM × TagData) × Nat) (u t : TagM) :
    poppedL acc.1 t ≤ poppedL (processTagKnown s version sz acc u).1 t := by
  unfold processTagKnown
  by_cases hut : u = t
  · subst hut
    cases hl : lookupTag acc.1 u with
    | none =>
      dsimp only
      split_ifs <;> dsimp only <;> rw [poppedL_setTag_self] <;>
        (unfold poppedL; rw [hl]; exact Nat.zero_le _)
    | some td =>
      dsimp only
      split_ifs
      · dsimp only
        rw [poppedL_setTag_self]
        unfold poppedL
        rw [hl]
        exact le_refl _
      · exact le_refl _
  · have hne : t ≠ u := fun hh => hut hh.symm
    cases hl : lookupTag acc.1 u with
    | none =>
      dsimp only
      split_ifs <;> dsimp only <;>
        simp only [poppedL_setTag_ne hne] <;> exact le_refl _
    | some td =>
      dsimp only
      split_ifs
      · dsimp only
        simp only [poppedL_setTag_ne hne]
        exact le_refl _
      · exact le_refl _

theorem processTag_poppedL (s : TLogState) (version sz : Nat)
    (acc : List (TagM × TagData) × Nat) (u t : TagM) :
    poppedL acc.1 t ≤ poppedL (processTag s version sz acc u).1 t := by
  unfold processTag
  split_ifs <;> first
    | exact le_refl _
    | exact processTagKnown_poppedL s version sz acc _ t

theorem foldTags_poppedL (s : TLogState) (version sz : Nat) (tags : List TagM)
    (acc : List (TagM × TagData) × Nat) (t : TagM) :
    poppedL acc.1 t ≤ poppedL (tags.foldl (processTag s version sz) acc).1 t := by
  induction tags generalizing acc with
  | nil => exact le_refl _
  | cons u r ih =>
    exact le_trans (processTag_poppedL s version sz acc u t) (ih _)

theorem commitTags_poppedL (s : TLogState) (version : Nat) (msgs : List TaggedMsg)
    (acc : List (TagM × TagData) × Nat) (t : TagM) :
    poppedL acc.1 t ≤ poppedL (commitTags s version msgs acc).1 t := by
  induction msgs generalizing acc with
  | nil => exact le_refl _
  | cons m r ih =>
    rw [commitTags]
    exact le_trans (foldTags_poppedL s version m.size m.tags acc t) (ih _)

theorem commitMessages_poppedOf (k : Knobs) (s : TLogState) (v : Nat)
    (msgs : List TaggedMsg) (t : TagM) :
    poppedOf s t ≤ poppedOf (commitMessages k s v msgs) t := by
  by_cases hm : msgs = []
  · simp [commitMessages, hm]
  · rcases commitMessages_shape k s v msgs hm with ⟨blocks, appends, h1, h2, h3, h4, h5⟩
    unfold poppedOf
    rw [h1]
    exact commitTags_poppedL s v msgs (s.tagData, 0) t

theorem tLogCommit_poppedOf (k : Knobs) (s : TLogState) (req : CommitReq)
    (t : TagM) : poppedOf s t ≤ poppedOf (tLogCommit k s req) t := by
  unfold tLogCommit
  dsimp only
  by_cases hst : s.stopped = true
  · rw [if_pos hst]
    exact le_refl _
  · rw [if_neg hst]
    by_cases hadm : s.version = req.prevVersion
    · rw [if_pos hadm]
      unfold poppedOf
      dsimp only
      have h := commitMessages_poppedOf k { s with minKnownCommittedVersion := max s.minKnownCommittedVersion req.minKnownCommittedVersion } req.version req.messages t
      unfold poppedOf at h
      exact h
    · rw [if_neg hadm]
      exact le_refl _

theorem eraseTagBefore_poppedOf (k : Knobs) (s : TLogState) (tag : TagM)
    (b : Nat) (t : TagM) : poppedOf (eraseTagBefore k s tag b) t = poppedOf s t := by
  unfold eraseTagBefore
  cases hl : lookupTag s.tagData tag with
  | none => rfl
  | some td =>
    dsimp only
    unfold poppedOf
    dsimp only
    by_cases hut : t = tag
    · subst hut
      rw [poppedL_setTag_self]
      unfold poppedL
      rw [hl]
      rfl
    · rw [poppedL_setTag_ne hut]

/-- An accepted pop on an existing tag raises its popped version to the
max of the old value and the request. -/
theorem popApply_lookup (k : Knobs) (s : TLogState) (t : TagM) (v : Nat)
    (td : TagData) (h : lookupTag s.tagData t = some td) :
    ∃ td2, lookupTag (popApply k s t v).tagData t = some td2 ∧
      td2.popped = max td.popped v := by
  unfold popApply
  rw [h]
  dsimp only
  by_cases hp : td.popped < v
  · rw [if_pos hp]
    by_cases hpd : s.persistentDataDurableVersion < v
    · rw [if_pos hpd]
      unfold eraseTagBefore
      dsimp only
      rw [lookupTag_setTag_self]
      dsimp only
      refine ⟨_, lookupTag_setTag_self _ _ _, ?_⟩
      dsimp only
      exact (Nat.max_eq_right (le_of_lt hp)).symm
    · rw [if_neg hpd]
      refine ⟨_, lookupTag_setTag_self _ _ _, ?_⟩
      dsimp only
      exact (Nat.max_eq_right (le_of_lt hp)).symm
  · rw [if_neg hp]
    exact ⟨td, h, (Nat.max_eq_left (le_of_not_lt hp)).symm⟩

theorem popApply_poppedOf (k : Knobs) (s : TLogState) (u : TagM) (v : Nat)
    (t : TagM) : poppedOf s t ≤ poppedOf (popApply k s u v) t := by
  by_cases hut : t = u
  · subst hut
    cases hl : lookupTag s.tagData t with
    | none =>
      unfold popApply
      rw [hl]
      dsimp only
      unfold poppedOf
      dsimp only
      rw [poppedL_setTag_self]
      unfold poppedL
      rw [hl]
      exact Nat.zero_le _
    | some td =>
      obtain ⟨td2, h2, h3⟩ := popApply_lookup k s t v td hl
      unfold poppedOf poppedL
      rw [hl, h2]
      show td.popped ≤ td2.popped
      rw [h3]
      exact Nat.le_max_left _ _
  · unfold popApply
    cases hl : lookupTag s.tagData u with
    | none =>
      unfold poppedOf
      dsimp only
      rw [poppedL_setTag_ne hut]
    | some td =>
      dsimp only
      split_ifs <;>
        first
          | exact le_refl _
          | (rw [eraseTagBefore_poppedOf]
             unfold poppedOf
             try dsimp only
             rw [poppedL_setTag_ne hut]
             try exact le_refl _)
          | (unfold poppedOf
             try dsimp only
             rw [poppedL_setTag_ne hut]
             try exact le_refl _)

theorem popCore_poppedOf (k : Knobs) (isPseudo : Int → Bool)
    (popPseudo : Int → Nat → Nat) (s : TLogState) (u : TagM) (toV : Nat)
    (t : TagM) : poppedOf s t ≤ poppedOf (tLogPopCore k isPseudo popPseudo s u toV) t := by
  unfold tLogPopCore
  split_ifs
  · exact le_refl _
  · exact popApply_poppedOf ..
  · exact popApply_poppedOf ..

theorem tLogPop_poppedOf (k : Knobs) (isPseudo : Int → Bool)
    (popPseudo : Int → Nat → Nat) (s : TLogState) (tg : TagM) (toV now : Nat)
    (t : TagM) : poppedOf s t ≤ poppedOf (tLogPop k isPseudo popPseudo s tg toV now) t := by
  unfold tLogPop
  by_cases hig : s.ignorePopRequest = true ∧ s.ignorePopDeadline < now
  · rw [if_pos hig]
    dsimp only
    have hfold : ∀ (l : List (TagM × Nat)) (x : TLogState),
        poppedOf x t ≤ poppedOf (l.foldl
          (fun acc p => tLogPopCore k isPseudo popPseudo acc p.1 p.2) x) t := by
      intro l
      induction l with
      | nil => intro x; exact le_refl _
      | cons p r ih =>
        intro x
        exact le_trans (popCore_poppedOf k isPseudo popPseudo x p.1 p.2 t) (ih _)
    refine le_trans (hfold s.toBePopped { s with ignorePopRequest := false, ignorePopDeadline := 0 }) ?_
    exact popCore_poppedOf k isPseudo popPseudo { (s.toBePopped.foldl (fun acc p => tLogPopCore k isPseudo popPseudo acc p.1 p.2) { s with ignorePopRequest := false, ignorePopDeadline := 0 }) with toBePopped := ([] : List (TagM × Nat)) } tg toV t
  · rw [if_neg hig]
    exact popCore_poppedOf k isPseudo popPseudo s tg toV t

theorem spillWriteTags_poppedL (pdv next : Nat) (l : List (TagM × TagData))
    (t : TagM) : poppedL (spillWriteTags pdv next l).1 t = poppedL l t := by
  induction l with
  | nil => rfl
  | cons p r ih =>
    rcases p with ⟨t0, td⟩
    rw [spillWriteTags]
    dsimp only
    rw [poppedL_cons, poppedL_cons]
    by_cases h : t0 = t
    · rw [if_pos h, if_pos h]
      have hp : ∀ td2 : TagData,
          (if td2.versionMessages.any (fun p => p.1 ≤ next) then
            { td2 with nothingPersistent := false } else td2).popped = td2.popped := by
        intro td2
        split_ifs <;> rfl
      rw [hp, updatePersistentPopped_popped]
    · rw [if_neg h, if_neg h, ih]

theorem spillDurableTags_poppedL (bound : Nat) (l : List (TagM × TagData))
    (t : TagM) : poppedL (spillDurableTags bound l).1 t = poppedL l t := by
  induction l with
  | nil => rfl
  | cons p r ih =>
    rcases p with ⟨t0, td⟩
    rw [spillDurableTags]
    dsimp only
    rw [poppedL_cons, poppedL_cons]
    by_cases h : t0 = t
    · rw [if_pos h, if_pos h]
    · rw [if_neg h, if_neg h, ih]

/-- `commitMessages` never touches the popped version of a tag that
already exists: the append path only extends `versionMessages`. -/
theorem processTagKnown_lookup (s : TLogState) (version sz : Nat)
    (acc : List (TagM × TagData) × Nat) (u t : TagM) (td : TagData)
    (h : lookupTag acc.1 t = some td) :
    ∃ td2, lookupTag (processTagKnown s version sz acc u).1 t = some td2 ∧
      td2.popped = td.popped := by
  unfold processTagKnown
  by_cases hut : u = t
  · subst hut
    rw [h]
    dsimp only
    by_cases hp : td.popped ≤ version
    · rw [if_pos hp]
      exact ⟨_, lookupTag_setTag_self _ _ _, rfl⟩
    · rw [if_neg hp]
      exact ⟨td, h, rfl⟩
  · have hne : t ≠ u := fun hh => hut hh.symm
    cases hl : lookupTag acc.1 u with
    | none =>
      dsimp only
      split_ifs <;> dsimp only <;>
        exact ⟨td, by rw [lookupTag_setTag_ne _ u t _ hne]; first | exact h | (rw [lookupTag_setTag_ne _ u t _ hne]; exact h), rfl⟩
    | some tdu =>
      dsimp only
      split_ifs
      · dsimp only
        exact ⟨td, by rw [lookupTag_setTag_ne _ u t _ hne]; exact h, rfl⟩
      · exact ⟨td, h, rfl⟩

theorem processTag_lookup (s : TLogState) (version sz : Nat)
    (acc : List (TagM × TagData) × Nat) (u t : TagM) (td : TagData)
    (h : lookupTag acc.1 t = some td) :
    ∃ td2, lookupTag (processTag s version sz acc u).1 t = some td2 ∧
      td2.popped = td.popped := by
  unfold processTag
  split_ifs <;> first
    | exact ⟨td, h, rfl⟩
    | exact processTagKnown_lookup s version sz acc _ t td h

theorem foldTags_lookup (s : TLogState) (version sz : Nat) (tags : List TagM) :
    ∀ (acc : List (TagM × TagData) × Nat) (t : TagM) (td : TagData),
    lookupTag acc.1 t = some td →
    ∃ td2, lookupTag (tags.foldl (processTag s version sz) acc).1 t = some td2 ∧
      td2.popped = td.popped := by
  induction tags with
  | nil => intro acc t td h; exact ⟨td, h, rfl⟩
  | cons u r ih =>
    intro acc t td h
    obtain ⟨td2, h2, h3⟩ := processTag_lookup s version sz acc u t td h
    obtain ⟨td3, h4, h5⟩ := ih _ t td2 h2
    exact ⟨td3, h4, h5.trans h3⟩

theorem commitTags_lookup (s : TLogState) (version : Nat) (msgs : List TaggedMsg) :
    ∀ (acc : List (TagM × TagData) × Nat) (t : TagM) (td : TagData),
    lookupTag acc.1 t = some td →
    ∃ td2, lookupTag (commitTags s version msgs acc).1 t = some td2 ∧
      td2.popped = td.popped := by
  induction msgs with
  | nil => intro acc t td h; exact ⟨td, h, rfl⟩
  | cons m r ih =>
    intro acc t td h
    obtain ⟨td2, h2, h3⟩ := foldTags_lookup s version m.size m.tags acc t td h
    obtain ⟨td3, h4, h5⟩ := ih _ t td2 h2
    exact ⟨td3, h4, h5.trans h3⟩

theorem commitMessages_lookup (k : Knobs) (s : TLogState) (v : Nat)
    (msgs : List TaggedMsg) (t : TagM) (td : TagData)
    (h : lookupTag s.tagData t = some td) :
    ∃ td2, lookupTag (commitMessages k s v msgs).tagData t = some td2 ∧
      td2.popped = td.popped := by
  by_cases hm : msgs = []
  · refine ⟨td, ?_, rfl⟩
    simpa [commitMessages, hm] using h
  · rcases commitMessages_shape k s v msgs hm with ⟨blocks, appends, h1, h2, h3, h4, h5⟩
    rw [h1]
    exact commitTags_lookup s v msgs (s.tagData, 0) t td h

theorem tLogCommit_lookup (k : Knobs) (s : TLogState) (req : CommitReq)
    (t : TagM) (td : TagData) (h : lookupTag s.tagData t = some td) :
    ∃ td2, lookupTag (tLogCommit k s req).tagData t = some td2 ∧
      td2.popped = td.popped := by
  unfold tLogCommit
  dsimp only
  by_cases hst : s.stopped = true
  · rw [if_pos hst]
    exact ⟨td, h, rfl⟩
  · rw [if_neg hst]
    by_cases hadm : s.version = req.prevVersion
    · rw [if_pos hadm]
      dsimp only
      exact commitMessages_lookup k { s with minKnownCommittedVersion := max s.minKnownCommittedVersion req.minKnownCommittedVersion } req.version req.messages t td h
    · rw [if_neg hadm]
      exact ⟨td, h, rfl⟩

/-! ### Pop/commit interleavings -/

/-- An event a tag's popped version can observe: a pop request for the
tag, or a whole commit batch. -/
inductive TLogEvent where
  | popEv (v : Nat)
  | commitEv (req : CommitReq)
  deriving DecidableEq

def applyEvent (k : Knobs) (t : TagM) (s : TLogState) : TLogEvent → TLogState
  | .popEv v => popApply k s t v
  | .commitEv req => tLogCommit k s req

/-- The maximum of the accepted pop versions in an event sequence,
starting from `p0`. -/
def acceptedMax (p0 : Nat) : List TLogEvent → Nat
  | [] => p0
  | .popEv v :: r => acceptedMax (max p0 v) r
  | .commitEv _ :: r => acceptedMax p0 r

/-- Running any interleaving of pops (for tag `t`) and commits leaves
`t` present with popped version exactly the running max of the accepted
pops. -/
theorem events_popped (k : Knobs) (t : TagM) (evs : List TLogEvent) :
    ∀ (s : TLogState) (td : TagData), lookupTag s.tagData t = some td →
    ∃ td2, lookupTag (evs.foldl (applyEvent k t) s).tagData t = some td2 ∧
      td2.popped = acceptedMax td.popped evs := by
  induction evs with
  | nil => intro s td h; exact ⟨td, h, rfl⟩
  | cons e r ih =>
    intro s td h
    simp only [List.foldl_cons]
    cases e with
    | popEv v =>
      obtain ⟨td2, h2, h3⟩ := popApply_lookup k s t v td h
      obtain ⟨td3, h4, h5⟩ := ih (popApply k s t v) td2 h2
      refine ⟨td3, h4, ?_⟩
      rw [h5, h3]
      simp only [acceptedMax]
    | commitEv req =>
      obtain ⟨td2, h2, h3⟩ := tLogCommit_lookup k s req t td h
      obtain ⟨td3, h4, h5⟩ := ih (tLogCommit k s req) td2 h2
      refine ⟨td3, h4, ?_⟩
      rw [h5, h3]
      simp only [acceptedMax]

/-! ### Version-field behaviour of each transition (claim C3 support) -/

theorem eraseTagBefore_vers (k : Knobs) (s : TLogState) (tag : TagM) (b : Nat) :
    (eraseTagBefore k s tag b).version = s.version ∧
    (eraseTagBefore k s tag b).queueCommittedVersion = s.queueCommittedVersion ∧
    (eraseTagBefore k s tag b).persistentDataVersion = s.persistentDataVersion := by
  unfold eraseTagBefore
  cases lookupTag s.tagData tag <;> exact ⟨rfl, rfl, rfl⟩

theorem popApply_vers (k : Knobs) (s : TLogState) (tag : TagM) (upTo : Nat) :
    (popApply k s tag upTo).version = s.version ∧
    (popApply k s tag upTo).queueCommittedVersion = s.queueCommittedVersion ∧
    (popApply k s tag upTo).persistentDataVersion = s.persistentDataVersion := by
  unfold popApply
  cases lookupTag s.tagData tag with
  | none => exact ⟨rfl, rfl, rfl⟩
  | some td =>
    dsimp only
    split_ifs <;> first | exact ⟨rfl, rfl, rfl⟩ | exact eraseTagBefore_vers ..

theorem popCore_vers (k : Knobs) (isPseudo : Int → Bool)
    (popPseudo : Int → Nat → Nat) (s : TLogState) (tg : TagM) (toV : Nat) :
    (tLogPopCore k isPseudo popPseudo s tg toV).version = s.version ∧
    (tLogPopCore k isPseudo popPseudo s tg toV).queueCommittedVersion = s.queueCommittedVersion ∧
    (tLogPopCore k isPseudo popPseudo s tg toV).persistentDataVersion = s.persistentDataVersion := by
  unfold tLogPopCore
  split_ifs <;> first | exact ⟨rfl, rfl, rfl⟩ | exact popApply_vers ..

theorem tLogPop_vers (k : Knobs) (isPseudo : Int → Bool)
    (popPseudo : Int → Nat → Nat) (s : TLogState) (tg : TagM) (toV now : Nat) :
    (tLogPop k isPseudo popPseudo s tg toV now).version = s.version ∧
    (tLogPop k isPseudo popPseudo s tg toV now).queueCommittedVersion = s.queueCommittedVersion ∧
    (tLogPop k isPseudo popPseudo s tg toV now).persistentDataVersion = s.persistentDataVersion := by
  unfold tLogPop
  by_cases hig : s.ignorePopRequest = true ∧ s.ignorePopDeadline < now
  · rw [if_pos hig]
    dsimp only
    have hfold : ∀ (l : List (TagM × Nat)) (x : TLogState),
        ((l.foldl (fun acc p => tLogPopCore k isPseudo popPseudo acc p.1 p.2) x).version = x.version ∧
         (l.foldl (fun acc p => tLogPopCore k isPseudo popPseudo acc p.1 p.2) x).queueCommittedVersion = x.queueCommittedVersion ∧
         (l.foldl (fun acc p => tLogPopCore k isPseudo popPseudo acc p.1 p.2) x).persistentDataVersion = x.persistentDataVersion) := by
      intro l
      induction l with
      | nil => intro x; exact ⟨rfl, rfl, rfl⟩
      | cons p r ih =>
        intro x
        obtain ⟨a1, a2, a3⟩ := ih (tLogPopCore k isPseudo popPseudo x p.1 p.2)
        obtain ⟨b1, b2, b3⟩ := popCore_vers k isPseudo popPseudo x p.1 p.2
        exact ⟨a1.trans b1, a2.trans b2, a3.trans b3⟩
    obtain ⟨a1, a2, a3⟩ := hfold s.toBePopped { s with ignorePopRequest := false, ignorePopDeadline := 0 }
    obtain ⟨b1, b2, b3⟩ := popCore_vers k isPseudo popPseudo { (s.toBePopped.foldl (fun acc p => tLogPopCore k isPseudo popPseudo acc p.1 p.2) { s with ignorePopRequest := false, ignorePopDeadline := 0 }) with toBePopped := ([] : List (TagM × Nat)) } tg toV
    exact ⟨b1.trans a1, b2.trans a2, b3.trans a3⟩
  · rw [if_neg hig]
    exact popCore_vers ..

/-- The commit path can only advance `version` (to `req.version`, from
`req.prevVersion < req.version` at admission) and leaves the
queue-committed and spill versions alone. -/
theorem tLogCommit_vers (k : Knobs) (s : TLogState) (req : CommitReq)
    (hwf : req.prevVersion < req.version) :
    s.version ≤ (tLogCommit k s req).version ∧
    (tLogCommit k s req).queueCommittedVersion = s.queueCommittedVersion ∧
    (tLogCommit k s req).persistentDataVersion = s.persistentDataVersion := by
  unfold tLogCommit
  dsimp only
  by_cases hst : s.stopped = true
  · rw [if_pos hst]
    exact ⟨le_refl _, rfl, rfl⟩
  · rw [if_neg hst]
    by_cases hadm : s.version = req.prevVersion
    · rw [if_pos hadm]
      dsimp only
      refine ⟨by omega, ?_, ?_⟩
      · rw [commitMessages_queueCommittedVersion]
      · rw [commitMessages_persistentDataVersion]
    · rw [if_neg hadm]
      exact ⟨le_refl _, rfl, rfl⟩

theorem phi_nonneg (k : Knobs) (s : TLogState) : 0 ≤ phi k s := by
  unfold phi
  positivity

/-! ### Claims C2, C3, C8 -/

/-- C2: for every tag `t`, `popped(t)` is non-decreasing across every
transition of the server; in every reachable state every in-memory
message held for a tag has version `≥` the tag's popped version (the
commit path refuses to append below `popped`, and pops erase the
in-memory prefix below the new popped version); and over any sequence
of pop requests for `t` interleaved with commit batches, `popped(t)`
equals the running maximum of the accepted pop versions (a pop with
`upTo ≤ popped(t)` leaves it unchanged). -/
theorem c2_popped_monotone_max (k : Knobs) (isPseudo : Int → Bool)
    (popPseudo : Int → Nat → Nat) :
    (∀ s s2, Step k isPseudo popPseudo s s2 → ∀ t, poppedOf s t ≤ poppedOf s2 t) ∧
    (∀ (v0 : Nat) (loc : Int) (lr : Nat) (atags : List TagM) (recAt : Nat)
       (lsv : Bool) (s : TLogState),
      Reachable k isPseudo popPseudo (initState v0 loc lr atags recAt lsv) s →
      ∀ t td, lookupTag s.tagData t = some td →
        ∀ q ∈ td.versionMessages, td.popped ≤ q.1) ∧
    (∀ (s : TLogState) (t : TagM) (td : TagData) (evs : List TLogEvent),
      lookupTag s.tagData t = some td →
      ∃ td2, lookupTag (evs.foldl (applyEvent k t) s).tagData t = some td2 ∧
        td2.popped = acceptedMax td.popped evs) := by
  refine ⟨?_, ?_, ?_⟩
  · intro s s2 hstep t
    cases hstep with
    | commit req hr hwf => exact tLogCommit_poppedOf k s req t
    | queueCommit hr hq => exact le_refl _
    | spillW next hr h1 h2 h3 =>
      exact le_of_eq (spillWriteTags_poppedL s.persistentDataVersion next s.tagData t).symm
    | spillD hr h1 =>
      exact le_of_eq (spillDurableTags_poppedL (s.persistentDataVersion + 1) s.tagData t).symm
    | pop tag toV now hr => exact tLogPop_poppedOf k isPseudo popPseudo s tag toV now t
    | stop hr => exact le_refl _
    | remove hr => exact le_refl _
  · intro v0 loc lr atags recAt lsv s hreach t td hlook q hq
    have hinv := inv_reachable k isPseudo popPseudo _ s
      (inv_init k v0 loc lr atags recAt lsv) hreach
    obtain ⟨h1, h2, h3, h4, h5, h6⟩ := hinv
    exact ((h4 _ (lookupTag_mem hlook)).2 q hq).1
  · intro s t td evs hlook
    exact events_popped k t evs s td hlook

theorem c2_popped_monotone_max_witness :
    (poppedOf samplePeekState ⟨0, 3⟩ ≤ poppedOf (stopLog samplePeekState) ⟨0, 3⟩) ∧
    ((⟨0, true, true, false, false, [(1, 2)]⟩ : TagData).popped ≤ (1, 2).1) ∧
    (∃ td2, lookupTag (([TLogEvent.popEv 7].foldl (applyEvent sampleKnobs ⟨0, 3⟩) samplePeekState)).tagData ⟨0, 3⟩ = some td2 ∧
      td2.popped = acceptedMax (⟨5, false, false, false, false, [(5, 2)]⟩ : TagData).popped [TLogEvent.popEv 7]) := by
  have F := c2_popped_monotone_max sampleKnobs (fun _ => false) (fun _ v => v)
  refine ⟨?_, ?_, ?_⟩
  · exact F.1 samplePeekState (stopLog samplePeekState) (Step.stop _ rfl) ⟨0, 3⟩
  · exact F.2.1 0 (-1) 0 [] 0 false _
      (Relation.ReflTransGen.single (Step.commit _ ⟨0, 1, 0, 0, [⟨2, [⟨0, 5⟩]⟩]⟩ rfl (by decide)))
      ⟨0, 5⟩ ⟨0, true, true, false, false, [(1, 2)]⟩ (by decide) (1, 2) (by decide)
  · exact F.2.2 samplePeekState ⟨0, 3⟩ ⟨5, false, false, false, false, [(5, 2)]⟩ [TLogEvent.popEv 7] rfl

/-- C3: in every reachable state, and again after any further step, the
version chain `persistent_data_durable_version ≤ persistent_data_version
≤ queue_committed_version ≤ version` holds; `version` and
`queue_committed_version` never decrease across a step; and any step
that advances `persistent_data_version` moves it only to a target that
`queue_committed_version` had already reached (the spill loop waits for
the queue commit before spilling). -/
theorem c3_version_chain (k : Knobs) (isPseudo : Int → Bool)
    (popPseudo : Int → Nat → Nat) (v0 : Nat) (loc : Int) (lr : Nat)
    (atags : List TagM) (recAt : Nat) (lsv : Bool) (s s2 : TLogState)
    (hreach : Reachable k isPseudo popPseudo
      (initState v0 loc lr atags recAt lsv) s)
    (hstep : Step k isPseudo popPseudo s s2) :
    (s.persistentDataDurableVersion ≤ s.persistentDataVersion ∧
     s.persistentDataVersion ≤ s.queueCommittedVersion ∧
     s.queueCommittedVersion ≤ s.version) ∧
    (s2.persistentDataDurableVersion ≤ s2.persistentDataVersion ∧
     s2.persistentDataVersion ≤ s2.queueCommittedVersion ∧
     s2.queueCommittedVersion ≤ s2.version) ∧
    s.version ≤ s2.version ∧
    s.queueCommittedVersion ≤ s2.queueCommittedVersion ∧
    (s.persistentDataVersion < s2.persistentDataVersion →
     s2.persistentDataVersion ≤ s.queueCommittedVersion) := by
  have hinv := inv_reachable k isPseudo popPseudo _ s
    (inv_init k v0 loc lr atags recAt lsv) hreach
  have hinv2 := inv_step k isPseudo popPseudo s s2 hstep hinv
  obtain ⟨a1, a2, a3, a4, a5, a6⟩ := hinv
  obtain ⟨b1, b2, b3, b4, b5, b6⟩ := hinv2
  refine ⟨⟨a1, a2, a3⟩, ⟨b1, b2, b3⟩, ?_⟩
  cases hstep with
  | commit req hr hwf =>
    obtain ⟨c1, c2, c3⟩ := tLogCommit_vers k s req hwf
    refine ⟨c1, le_of_eq c2.symm, ?_⟩
    intro hlt
    rw [c3] at hlt
    omega
  | queueCommit hr hq =>
    refine ⟨le_refl _, a3, ?_⟩
    intro hlt
    exact absurd hlt (lt_irrefl _)
  | spillW next hr h1 h2 h3 =>
    refine ⟨le_refl _, le_refl _, ?_⟩
    intro hlt
    exact h2
  | spillD hr h1 =>
    refine ⟨le_refl _, le_refl _, ?_⟩
    intro hlt
    exact absurd hlt (lt_irrefl _)
  | pop tag toV now hr =>
    obtain ⟨c1, c2, c3⟩ := tLogPop_vers k isPseudo popPseudo s tag toV now
    refine ⟨le_of_eq c1.symm, le_of_eq c2.symm, ?_⟩
    intro hlt
    rw [c3] at hlt
    omega
  | stop hr =>
    exact ⟨le_refl _, le_refl _, fun hlt => absurd hlt (lt_irrefl _)⟩
  | remove hr =>
    exact ⟨le_refl _, le_refl _, fun hlt => absurd hlt (lt_irrefl _)⟩

theorem c3_version_chain_witness :
    ((initState 3 0 0 [] 0 false).persistentDataDurableVersion ≤ (initState 3 0 0 [] 0 false).persistentDataVersion ∧
     (initState 3 0 0 [] 0 false).persistentDataVersion ≤ (initState 3 0 0 [] 0 false).queueCommittedVersion ∧
     (initState 3 0 0 [] 0 false).queueCommittedVersion ≤ (initState 3 0 0 [] 0 false).version) ∧
    ((stopLog (initState 3 0 0 [] 0 false)).persistentDataDurableVersion ≤ (stopLog (initState 3 0 0 [] 0 false)).persistentDataVersion ∧
     (stopLog (initState 3 0 0 [] 0 false)).persistentDataVersion ≤ (stopLog (initState 3 0 0 [] 0 false)).queueCommittedVersion ∧
     (stopLog (initState 3 0 0 [] 0 false)).queueCommittedVersion ≤ (stopLog (initState 3 0 0 [] 0 false)).version) ∧
    (initState 3 0 0 [] 0 false).version ≤ (stopLog (initState 3 0 0 [] 0 false)).version ∧
    (initState 3 0 0 [] 0 false).queueCommittedVersion ≤ (stopLog (initState 3 0 0 [] 0 false)).queueCommittedVersion ∧
    ((initState 3 0 0 [] 0 false).persistentDataVersion < (stopLog (initState 3 0 0 [] 0 false)).persistentDataVersion →
     (stopLog (initState 3 0 0 [] 0 false)).persistentDataVersion ≤ (initState 3 0 0 [] 0 false).queueCommittedVersion) :=
  c3_version_chain sampleKnobs (fun _ => false) (fun _ v => v) 3 0 0 [] 0 false
    _ _ Relation.ReflTransGen.refl (Step.stop _ rfl)

/-- C8: in every reachable state `bytes_durable ≤ bytes_input`, both
for the per-generation (`LogData`) counters and for the process-wide
(`TLogData`) counters: the difference is the non-negative potential of
the in-memory data (entry overhead plus unspilled block bytes). -/
theorem c8_bytes_durable_le_input (k : Knobs) (isPseudo : Int → Bool)
    (popPseudo : Int → Nat → Nat) (v0 : Nat) (loc : Int) (lr : Nat)
    (atags : List TagM) (recAt : Nat) (lsv : Bool) (s : TLogState)
    (h : Reachable k isPseudo popPseudo
      (initState v0 loc lr atags recAt lsv) s) :
    s.logBytesDurable ≤ s.logBytesInput ∧
    s.sharedBytesDurable ≤ s.sharedBytesInput := by
  have hinv := inv_reachable k isPseudo popPseudo _ s
    (inv_init k v0 loc lr atags recAt lsv) h
  obtain ⟨h1, h2, h3, h4, h5, h6⟩ := hinv
  have hp := phi_nonneg k s
  constructor
  · omega
  · cases hrem : s.removed with
    | true =>
      rw [hrem] at h6
      simp only [if_pos rfl] at h6
      omega
    | false =>
      rw [hrem] at h6
      simp only [Bool.false_eq_true, if_false] at h6
      omega

theorem c8_bytes_durable_le_input_witness :
    (initState 0 0 0 [] 0 false).logBytesDurable ≤
      (initState 0 0 0 [] 0 false).logBytesInput ∧
    (initState 0 0 0 [] 0 false).sharedBytesDurable ≤
      (initState 0 0 0 [] 0 false).sharedBytesInput :=
  c8_bytes_durable_le_input sampleKnobs (fun _ => false) (fun _ v => v)
    0 0 0 [] 0 false (initState 0 0 0 [] 0 false) Relation.ReflTransGen.refl

end Spec2Proof
